import Mathlib

/-!
# Verification of the HNSW core (package `hnsw`)

A shallow embedding of the repository's HNSW index:

* `PriorityQueue` / `MaxHeap` (src/unnamed/part_007) are slices driven by Go's
  `container/heap`; we embed the slice as a `List Item` together with the
  `up` / `down` sift routines of `container/heap`, parameterised by the
  `Less` function of the two heap types (`minLess` for `PriorityQueue`,
  `maxLess` for `MaxHeap`).  The `index` bookkeeping field of `Item` is only
  used by `heap.Fix` / `heap.Remove`, which this code never calls, so it is
  dropped.
* distances are embedded as rationals (`ℚ`): the Go code computes `float32`
  distances, but every claim under verification is about comparisons and
  exact small-integer arithmetic, which `ℚ` models exactly.
* node ids and levels are embedded as `ℤ` (Go `int`), including the `-1`
  sentinels for `entryPoint` / `maxLevel`.
-/

/-- Go `Item` from src/unnamed/part_007: value is a node id, priority a
distance.  The heap-internal `index` field is dropped (unused without
`heap.Fix`/`heap.Remove`). -/
structure Item where
  value : ℤ
  priority : ℚ
deriving DecidableEq, Repr

instance : Inhabited Item := ⟨⟨0, 0⟩⟩

/-- `PriorityQueue.Less` from src/unnamed/part_007 (min-heap on distance). -/
def minLess (a b : Item) : Bool := a.priority < b.priority

/-- `MaxHeap.Less` from src/unnamed/part_007 (max-heap on distance). -/
def maxLess (a b : Item) : Bool := a.priority > b.priority

/-- Element at index `i` of the heap slice (Go `pq[i]`). -/
def elt (l : List Item) (i : ℕ) : Item := l.getD i default

/-- Go slice swap `pq[i], pq[j] = pq[j], pq[i]` (both reads happen before the
writes). -/
def listSwap (l : List Item) (i j : ℕ) : List Item :=
  (l.set i (elt l j)).set j (elt l i)

/-- Parent index in Go's `container/heap`: `i := (j - 1) / 2`.  (For `j = 0`
Go's truncated division also yields `0`, matching `ℕ` subtraction.) -/
def parentIdx (j : ℕ) : ℕ := (j - 1) / 2

/-- Go `container/heap.up`, with explicit fuel; the sift position strictly
decreases, so fuel `j + 1` runs the loop to completion (see `heapUp`). -/
def heapUpAux (less : Item → Item → Bool) : ℕ → List Item → ℕ → List Item
  | 0, l, _ => l
  | _ + 1, l, 0 => l
  | fuel + 1, l, j + 1 =>
    let i := j / 2
    if less (elt l (j + 1)) (elt l i) then heapUpAux less fuel (listSwap l i (j + 1)) i
    else l

/-- Go `container/heap.up h j`. -/
def heapUp (less : Item → Item → Bool) (l : List Item) (j : ℕ) : List Item :=
  heapUpAux less (j + 1) l j

/-- Go `container/heap.down`, with explicit fuel; the sift position strictly
increases and stays below `n`, so fuel `n` runs the loop to completion.  The
boolean result of Go's `down` (only used by `heap.Fix`) is dropped. -/
def heapDownAux (less : Item → Item → Bool) : ℕ → List Item → ℕ → ℕ → List Item
  | 0, l, _, _ => l
  | fuel + 1, l, i, n =>
    let j1 := 2 * i + 1
    if j1 ≥ n then l
    else
      let j := if 2 * i + 2 < n ∧ less (elt l (2 * i + 2)) (elt l j1) then 2 * i + 2 else j1
      if less (elt l j) (elt l i) then heapDownAux less fuel (listSwap l i j) j n
      else l

/-- Go `container/heap.down h i n`. -/
def heapDown (less : Item → Item → Bool) (l : List Item) (i n : ℕ) : List Item :=
  heapDownAux less n l i n

/-- Go `heap.Push(h, x)`: the interface `Push` appends, then `up` sifts the
last element. -/
def heapPush (less : Item → Item → Bool) (l : List Item) (x : Item) : List Item :=
  heapUp less (l ++ [x]) l.length

/-- Go `heap.Pop(h)`: swap the root with the last element, sift down over the
first `n` positions, then the interface `Pop` removes and returns the last
element.  Go panics on an empty heap; the code under verification always
guards pops with `Len() > 0`, embedded here as the `none` case. -/
def heapPop (less : Item → Item → Bool) (l : List Item) : Option (Item × List Item) :=
  match l with
  | [] => none
  | _ :: _ =>
    let n := l.length - 1
    let l1 := listSwap l 0 n
    let l2 := heapDown less l1 0 n
    some (elt l2 n, l2.take n)

/-- `MaxHeap.Peek` from src/unnamed/part_007 (`nil` on empty becomes `none`). -/
def heapPeek (l : List Item) : Option Item := l.head?

/-- Repeatedly `heap.Pop` until empty (the result-drain loops of
`searchLayer` and `selectNeighborsHeuristic`); fuel `l.length` suffices since
each pop removes one element. -/
def heapDrainAux (less : Item → Item → Bool) : ℕ → List Item → List Item
  | 0, _ => []
  | fuel + 1, l =>
    match heapPop less l with
    | none => []
    | some (x, rest) => x :: heapDrainAux less fuel rest

/-- Drain a heap to a list in pop order. -/
def heapDrain (less : Item → Item → Bool) (l : List Item) : List Item :=
  heapDrainAux less l.length l

/-- Pop at most `k` items (the `for i := 0; i < m && pq.Len() > 0; i++` loop
of `selectNeighborsHeuristic`). -/
def popN (less : Item → Item → Bool) : ℕ → List Item → List Item
  | 0, _ => []
  | k + 1, l =>
    match heapPop less l with
    | none => []
    | some (x, rest) => x :: popN less k rest

/-! ## Basic list-index lemmas -/

theorem getD_set_self : ∀ (l : List Item) (i : ℕ) (a : Item), i < l.length →
    (l.set i a).getD i default = a
  | _ :: _, 0, a, _ => rfl
  | _ :: t, i + 1, a, h => getD_set_self t i a (by simpa using h)

theorem getD_set_ne : ∀ (l : List Item) (i j : ℕ) (a : Item), i ≠ j →
    (l.set i a).getD j default = l.getD j default
  | [], _, _, _, _ => by simp
  | _ :: _, 0, 0, a, h => absurd rfl h
  | _ :: _, 0, _ + 1, a, _ => rfl
  | _ :: _, _ + 1, 0, a, _ => rfl
  | _ :: t, i + 1, j + 1, a, h => getD_set_ne t i j a (fun hc => h (by omega))

theorem listSwap_length (l : List Item) (i j : ℕ) : (listSwap l i j).length = l.length := by
  simp [listSwap]

theorem elt_listSwap_fst (l : List Item) (i j : ℕ) (hi : i < l.length) :
    elt (listSwap l i j) i = elt l j := by
  by_cases hij : i = j
  · subst hij
    simp only [listSwap, elt]
    rw [getD_set_self _ _ _ (by simpa using hi)]
  · simp only [listSwap, elt]
    rw [getD_set_ne _ _ _ _ (Ne.symm hij), getD_set_self _ _ _ hi]

theorem elt_listSwap_snd (l : List Item) (i j : ℕ) (hj : j < l.length) :
    elt (listSwap l i j) j = elt l i := by
  simp only [listSwap, elt]
  rw [getD_set_self _ _ _ (by simpa using hj)]

theorem elt_listSwap_other (l : List Item) (i j k : ℕ) (hki : k ≠ i) (hkj : k ≠ j) :
    elt (listSwap l i j) k = elt l k := by
  simp only [listSwap, elt]
  rw [getD_set_ne _ _ _ _ (Ne.symm hkj), getD_set_ne _ _ _ _ (Ne.symm hki)]

theorem getD_cons_set_perm :
    ∀ (t : List Item) (m : ℕ) (a : Item), m < t.length →
      (t.getD m default :: t.set m a).Perm (a :: t)
  | b :: t', 0, a, _ => List.Perm.swap a b t'
  | b :: t', m + 1, a, h => by
    have ih := getD_cons_set_perm t' m a (by simpa using h)
    show (t'.getD m default :: b :: t'.set m a).Perm (a :: b :: t')
    exact (List.Perm.swap b _ _).trans ((ih.cons b).trans (List.Perm.swap a b t'))

theorem set_getD_self : ∀ (l : List Item) (i : ℕ), i < l.length →
    l.set i (l.getD i default) = l
  | _ :: _, 0, _ => rfl
  | a :: t, i + 1, h => by
    show a :: t.set i (t.getD i default) = a :: t
    rw [set_getD_self t i (by simpa using h)]

theorem listSwap_perm :
    ∀ (l : List Item) (i j : ℕ), i < l.length → j < l.length → (listSwap l i j).Perm l
  | a :: t, 0, 0, _, _ => by
    simp only [listSwap, elt, List.set_set]
    rw [set_getD_self (a :: t) 0 (by simp)]
  | a :: t, 0, m + 1, _, hj => by
    have : listSwap (a :: t) 0 (m + 1) = t.getD m default :: t.set m a := rfl
    rw [this]
    exact getD_cons_set_perm t m a (by simpa using hj)
  | a :: t, k + 1, 0, hi, _ => by
    have hcomm : listSwap (a :: t) (k + 1) 0 = listSwap (a :: t) 0 (k + 1) := by
      simp only [listSwap]
      exact List.set_comm (elt (a :: t) 0) (elt (a :: t) (k + 1)) (a :: t) (by omega)
    rw [hcomm]
    have : listSwap (a :: t) 0 (k + 1) = t.getD k default :: t.set k a := rfl
    rw [this]
    exact getD_cons_set_perm t k a (by simpa using hi)
  | a :: t, k + 1, m + 1, hi, hj => by
    have : listSwap (a :: t) (k + 1) (m + 1) = a :: listSwap t k m := rfl
    rw [this]
    exact (listSwap_perm t k m (by simpa using hi) (by simpa using hj)).cons a

/-! ## Heap bookkeeping lemmas: lengths and multiset preservation -/

theorem heapUpAux_length (less : Item → Item → Bool) :
    ∀ (fuel : ℕ) (l : List Item) (j : ℕ), (heapUpAux less fuel l j).length = l.length
  | 0, _, _ => rfl
  | _ + 1, l, 0 => rfl
  | fuel + 1, l, j + 1 => by
    simp only [heapUpAux]
    split
    · rw [heapUpAux_length less fuel _ _, listSwap_length]
    · rfl

theorem heapUpAux_perm (less : Item → Item → Bool) :
    ∀ (fuel : ℕ) (l : List Item) (j : ℕ), j < l.length → (heapUpAux less fuel l j).Perm l
  | 0, _, _, _ => List.Perm.refl _
  | _ + 1, _, 0, _ => List.Perm.refl _
  | fuel + 1, l, j + 1, hj => by
    simp only [heapUpAux]
    split
    · have hlt : j / 2 < l.length := by omega
      have hswap := listSwap_perm l (j / 2) (j + 1) hlt hj
      exact (heapUpAux_perm less fuel _ _ (by rw [listSwap_length]; omega)).trans hswap
    · exact List.Perm.refl _

theorem heapDownAux_length (less : Item → Item → Bool) :
    ∀ (fuel : ℕ) (l : List Item) (i n : ℕ), (heapDownAux less fuel l i n).length = l.length
  | 0, _, _, _ => rfl
  | fuel + 1, l, i, n => by
    simp only [heapDownAux]
    split
    · rfl
    · split
      · split
        · rw [heapDownAux_length less fuel _ _ _, listSwap_length]
        · rfl
      · split
        · rw [heapDownAux_length less fuel _ _ _, listSwap_length]
        · rfl

theorem heapDownAux_perm (less : Item → Item → Bool) :
    ∀ (fuel : ℕ) (l : List Item) (i n : ℕ), n ≤ l.length → (heapDownAux less fuel l i n).Perm l
  | 0, _, _, _, _ => List.Perm.refl _
  | fuel + 1, l, i, n, hn => by
    simp only [heapDownAux]
    split
    · exact List.Perm.refl _
    · rename_i hj1
      split
      · rename_i hc
        split
        · have hswap := listSwap_perm l i (2 * i + 2) (by omega) (by omega)
          exact (heapDownAux_perm less fuel _ _ _ (by rw [listSwap_length]; omega)).trans hswap
        · exact List.Perm.refl _
      · split
        · have hswap := listSwap_perm l i (2 * i + 1) (by omega) (by omega)
          exact (heapDownAux_perm less fuel _ _ _ (by rw [listSwap_length]; omega)).trans hswap
        · exact List.Perm.refl _

/-- The `down` sift never moves elements at positions `≥ n`. -/
theorem heapDownAux_elt_ge (less : Item → Item → Bool) :
    ∀ (fuel : ℕ) (l : List Item) (i n k : ℕ), n ≤ k →
      elt (heapDownAux less fuel l i n) k = elt l k
  | 0, _, _, _, _, _ => rfl
  | fuel + 1, l, i, n, k, hk => by
    simp only [heapDownAux]
    split
    · rfl
    · rename_i hj1
      split
      · rename_i hc
        split
        · rw [heapDownAux_elt_ge less fuel _ _ _ _ hk]
          exact elt_listSwap_other l i (2 * i + 2) k (by omega) (by omega)
        · rfl
      · split
        · rw [heapDownAux_elt_ge less fuel _ _ _ _ hk]
          exact elt_listSwap_other l i (2 * i + 1) k (by omega) (by omega)
        · rfl

theorem heapPush_length (less : Item → Item → Bool) (l : List Item) (x : Item) :
    (heapPush less l x).length = l.length + 1 := by
  simp [heapPush, heapUp, heapUpAux_length]

theorem heapPush_perm (less : Item → Item → Bool) (l : List Item) (x : Item) :
    (heapPush less l x).Perm (x :: l) := by
  have h1 : (heapPush less l x).Perm (l ++ [x]) :=
    heapUpAux_perm less _ _ _ (by simp)
  exact h1.trans (List.perm_append_singleton x l)

theorem drop_length_sub_one :
    ∀ (l : List Item), l ≠ [] → l.drop (l.length - 1) = [elt l (l.length - 1)]
  | [a], _ => rfl
  | a :: b :: t, _ => by
    have ih := drop_length_sub_one (b :: t) (by simp)
    show (a :: b :: t).drop ((b :: t).length) = _
    simpa [elt] using ih

theorem heapPop_eq_some (less : Item → Item → Bool) (l : List Item) (hne : l ≠ []) :
    heapPop less l =
      some (elt l 0,
        (heapDown less (listSwap l 0 (l.length - 1)) 0 (l.length - 1)).take (l.length - 1)) := by
  match l, hne with
  | a :: t, _ =>
    show some _ = some _
    congr 1
    have hn : (a :: t).length - 1 < (a :: t).length := by simp
    have h1 : elt (heapDown less (listSwap (a :: t) 0 ((a :: t).length - 1)) 0
        ((a :: t).length - 1)) ((a :: t).length - 1) =
        elt (listSwap (a :: t) 0 ((a :: t).length - 1)) ((a :: t).length - 1) :=
      heapDownAux_elt_ge less _ _ _ _ _ (le_refl _)
    have h2 : elt (listSwap (a :: t) 0 ((a :: t).length - 1)) ((a :: t).length - 1) =
        elt (a :: t) 0 :=
      elt_listSwap_snd (a :: t) 0 _ hn
    rw [h1, h2]

theorem heapPop_length (less : Item → Item → Bool) (l : List Item) (x : Item)
    (rest : List Item) (h : heapPop less l = some (x, rest)) :
    rest.length = l.length - 1 ∧ l ≠ [] := by
  match l, h with
  | a :: t, h =>
    refine ⟨?_, by simp⟩
    have := heapPop_eq_some less (a :: t) (by simp)
    rw [this] at h
    have hr : rest = (heapDown less (listSwap (a :: t) 0 ((a :: t).length - 1)) 0
        ((a :: t).length - 1)).take ((a :: t).length - 1) := by
      injection h with h'
      injection h' with h1 h2
      exact h2.symm
    rw [hr]
    simp only [List.length_take, heapDown, heapDownAux_length, listSwap_length]
    omega

theorem heapPop_perm (less : Item → Item → Bool) (l : List Item) (x : Item)
    (rest : List Item) (h : heapPop less l = some (x, rest)) :
    (x :: rest).Perm l := by
  match l, h with
  | a :: t, h =>
    rw [heapPop_eq_some less (a :: t) (by simp)] at h
    injection h with h'
    injection h' with h1 h2
    subst h1
    subst h2
    set l2 := heapDown less (listSwap (a :: t) 0 ((a :: t).length - 1)) 0
      ((a :: t).length - 1) with hl2
    have hlen : l2.length = (a :: t).length := by
      rw [hl2]
      show (heapDownAux less _ _ _ _).length = _
      rw [heapDownAux_length, listSwap_length]
    have hperm2 : l2.Perm (a :: t) := by
      have hp1 : l2.Perm (listSwap (a :: t) 0 ((a :: t).length - 1)) :=
        heapDownAux_perm less _ _ _ _ (by rw [listSwap_length]; omega)
      exact hp1.trans (listSwap_perm (a :: t) 0 _ (by simp) (by simp))
    have hsplit : l2 = l2.take ((a :: t).length - 1) ++ [elt l2 ((a :: t).length - 1)] := by
      conv_lhs => rw [← List.take_append_drop ((a :: t).length - 1) l2]
      congr 1
      have := drop_length_sub_one l2 (by
        intro hcon
        rw [hcon] at hlen
        simp at hlen)
      rw [← hlen] at *
      simpa using this
    have hmain : (elt l2 ((a :: t).length - 1) :: l2.take ((a :: t).length - 1)).Perm l2 := by
      conv_rhs => rw [hsplit]
      exact (List.perm_append_singleton _ _).symm
    have hx : elt l2 ((a :: t).length - 1) = elt (a :: t) 0 := by
      have h1 : elt l2 ((a :: t).length - 1) =
          elt (listSwap (a :: t) 0 ((a :: t).length - 1)) ((a :: t).length - 1) := by
        rw [hl2]
        exact heapDownAux_elt_ge less _ _ _ _ _ (le_refl _)
      rw [h1]
      exact elt_listSwap_snd (a :: t) 0 _ (by simp)
    rw [← hx]
    exact hmain.trans hperm2

/-! ## Heap ordering invariant -/

/-- Strict-order facts about a heap `Less` function: irreflexivity,
transitivity, and transitivity of the complement.  Both `minLess` and
`maxLess` (comparisons on `ℚ`) satisfy them. -/
def LessOrd (less : Item → Item → Bool) : Prop :=
  (∀ a, less a a = false) ∧
  (∀ a b c, less a b = true → less b c = true → less a c = true) ∧
  (∀ a b c, less a b = false → less b c = false → less a c = false)

theorem minLess_ord : LessOrd minLess := by
  refine ⟨fun a => by simp [minLess], fun a b c hab hbc => ?_, fun a b c hab hbc => ?_⟩
  · simp only [minLess, decide_eq_true_eq] at *
    exact hab.trans hbc
  · simp only [minLess, decide_eq_false_iff_not, not_lt] at *
    exact hbc.trans hab

theorem maxLess_ord : LessOrd maxLess := by
  refine ⟨fun a => by simp [maxLess], fun a b c hab hbc => ?_, fun a b c hab hbc => ?_⟩
  · simp only [maxLess, gt_iff_lt, decide_eq_true_eq] at *
    exact hbc.trans hab
  · simp only [maxLess, gt_iff_lt, decide_eq_false_iff_not, not_lt] at *
    exact hab.trans hbc

theorem LessOrd.asymm {less : Item → Item → Bool} (ho : LessOrd less) {a b : Item}
    (h : less a b = true) : less b a = false := by
  cases hba : less b a with
  | false => rfl
  | true =>
    have hx := ho.2.1 a b a h hba
    rw [ho.1 a] at hx
    exact absurd hx (by simp)

/-- The binary-heap shape invariant of `container/heap` on the first `n`
positions: no element is `Less` than its parent. -/
def IsHeapN (less : Item → Item → Bool) (l : List Item) (n : ℕ) : Prop :=
  ∀ j, 1 ≤ j → j < n → less (elt l j) (elt l (parentIdx j)) = false

theorem parentIdx_succ (j : ℕ) : parentIdx (j + 1) = j / 2 := rfl

theorem parentIdx_lt {j : ℕ} (h : 1 ≤ j) : parentIdx j < j := by
  simp only [parentIdx]; omega

theorem parentIdx_eq_iff {c i : ℕ} (hc : 1 ≤ c) :
    parentIdx c = i ↔ c = 2 * i + 1 ∨ c = 2 * i + 2 := by
  simp only [parentIdx]; omega

theorem elt_append_lt (l : List Item) (x : Item) {k : ℕ} (hk : k < l.length) :
    elt (l ++ [x]) k = elt l k := by
  simp only [elt]
  rw [List.getD_eq_getElem?_getD, List.getD_eq_getElem?_getD, List.getElem?_append_left hk]

theorem elt_append_self (l : List Item) (x : Item) : elt (l ++ [x]) l.length = x := by
  simp only [elt]
  rw [List.getD_eq_getElem?_getD, List.getElem?_append_right (le_refl _)]
  simp

theorem elt_take {l : List Item} {j n : ℕ} (hj : j < n) : elt (l.take n) j = elt l j := by
  simp only [elt]
  rw [List.getD_eq_getElem?_getD, List.getD_eq_getElem?_getD, List.getElem?_take_of_lt hj]

theorem elt_of_mem {l : List Item} {y : Item} (h : y ∈ l) :
    ∃ k, k < l.length ∧ elt l k = y := by
  obtain ⟨k, hk, hy⟩ := List.getElem_of_mem h
  refine ⟨k, hk, ?_⟩
  simp only [elt]
  rw [List.getD_eq_getElem?_getD, List.getElem?_eq_getElem hk]
  simpa using hy

/-- Correctness of the `up` sift: starting from a list that satisfies the
heap invariant everywhere except possibly at position `j` (whose children,
if any, are already no less than `j`'s parent), sifting up restores the full
invariant. -/
theorem heapUpAux_isHeap {less : Item → Item → Bool} (ho : LessOrd less) :
    ∀ (fuel : ℕ) (l : List Item) (j : ℕ), j < fuel → j < l.length →
      (∀ k, 1 ≤ k → k < l.length → k ≠ j → less (elt l k) (elt l (parentIdx k)) = false) →
      (1 ≤ j → ∀ c, c < l.length → parentIdx c = j →
        less (elt l c) (elt l (parentIdx j)) = false) →
      IsHeapN less (heapUpAux less fuel l j) l.length
  | 0, _, j, hf, _, _, _ => absurd hf (by omega)
  | fuel + 1, l, 0, _, _, h1, _ => by
    intro k hk1 hk2
    exact h1 k hk1 hk2 (by omega)
  | fuel + 1, l, j + 1, hf, hjl, h1, h2 => by
    simp only [heapUpAux]
    split
    · rename_i hless
      have hi : j / 2 < l.length := by omega
      have hij : j / 2 < j + 1 := by omega
      have hlen : (listSwap l (j / 2) (j + 1)).length = l.length := listSwap_length _ _ _
      have hmain := heapUpAux_isHeap ho fuel (listSwap l (j / 2) (j + 1)) (j / 2)
        (by omega) (by omega) ?_ ?_
      · rw [hlen] at hmain
        exact hmain
      · -- clause 1 for the swapped list
        intro k hk1 hkl hki
        rw [hlen] at hkl
        by_cases hkj : k = j + 1
        · subst hkj
          rw [elt_listSwap_snd l (j / 2) (j + 1) hjl, parentIdx_succ,
            elt_listSwap_fst l (j / 2) (j + 1) hi]
          exact ho.asymm hless
        · rw [elt_listSwap_other l (j / 2) (j + 1) k hki hkj]
          by_cases hpk : parentIdx k = j / 2
          · rw [hpk, elt_listSwap_fst l (j / 2) (j + 1) hi]
            cases hgoal : less (elt l k) (elt l (j + 1)) with
            | false => rfl
            | true =>
              have htr := ho.2.1 _ _ _ hgoal hless
              have := h1 k hk1 hkl hkj
              rw [hpk] at this
              rw [this] at htr
              exact (Bool.false_ne_true htr).elim
          · by_cases hpk2 : parentIdx k = j + 1
            · rw [hpk2, elt_listSwap_snd l (j / 2) (j + 1) hjl]
              have := h2 (by omega) k hkl hpk2
              rwa [parentIdx_succ] at this
            · rw [elt_listSwap_other l (j / 2) (j + 1) (parentIdx k) hpk hpk2]
              exact h1 k hk1 hkl hkj
      · -- clause 2 for the swapped list
        intro hi1 c hcl hpc
        rw [hlen] at hcl
        have hpi : parentIdx (j / 2) < j / 2 := parentIdx_lt hi1
        rw [elt_listSwap_other l (j / 2) (j + 1) (parentIdx (j / 2)) (by omega) (by omega)]
        by_cases hcj : c = j + 1
        · subst hcj
          rw [elt_listSwap_snd l (j / 2) (j + 1) hjl]
          exact h1 (j / 2) hi1 hi (by omega)
        · have hci : c ≠ j / 2 := by
            intro hcon
            rw [hcon] at hpc
            omega
          rw [elt_listSwap_other l (j / 2) (j + 1) c hci hcj]
          have hcpos : 1 ≤ c := by
            rcases Nat.eq_zero_or_pos c with h0 | hpos
            · exfalso
              rw [h0] at hpc
              simp only [parentIdx] at hpc
              omega
            · exact hpos
          have hc1 : less (elt l c) (elt l (j / 2)) = false := by
            have := h1 c hcpos hcl hcj
            rwa [hpc] at this
          have hc2 : less (elt l (j / 2)) (elt l (parentIdx (j / 2))) = false :=
            h1 (j / 2) hi1 hi (by omega)
          exact ho.2.2 _ _ _ hc1 hc2
    · rename_i hless
      intro k hk1 hk2
      by_cases hkj : k = j + 1
      · subst hkj
        rw [parentIdx_succ]
        exact Bool.of_not_eq_true hless
      · exact h1 k hk1 hk2 hkj

theorem parentIdx_left (i : ℕ) : parentIdx (2 * i + 1) = i := by
  simp only [parentIdx]; omega

theorem parentIdx_right (i : ℕ) : parentIdx (2 * i + 2) = i := by
  simp only [parentIdx]; omega

/-- Correctness of the `down` sift: starting from a list that satisfies the
heap invariant below `n` everywhere except possibly between `i` and its
children (while `i`'s children, if any, are already no less than `i`'s
parent), sifting down restores the invariant on the first `n` positions. -/
theorem heapDownAux_isHeap {less : Item → Item → Bool} (ho : LessOrd less) :
    ∀ (fuel : ℕ) (l : List Item) (i n : ℕ), n ≤ l.length → n - i ≤ fuel →
      (∀ k, 1 ≤ k → k < n → parentIdx k ≠ i → less (elt l k) (elt l (parentIdx k)) = false) →
      (1 ≤ i → ∀ c, 1 ≤ c → c < n → parentIdx c = i →
        less (elt l c) (elt l (parentIdx i)) = false) →
      IsHeapN less (heapDownAux less fuel l i n) n
  | 0, l, i, n, _, hfi, h1, _ => by
    intro k hk1 hkn
    apply h1 k hk1 hkn
    intro hpk
    have := parentIdx_lt hk1
    omega
  | fuel + 1, l, i, n, hnl, hfi, h1, h2 => by
    simp only [heapDownAux]
    split
    · rename_i hj1
      intro k hk1 hkn
      apply h1 k hk1 hkn
      intro hpk
      rw [parentIdx_eq_iff hk1] at hpk
      omega
    · rename_i hj1
      split
      · rename_i hcond
        obtain ⟨hc2n, hc2l⟩ := hcond
        split
        · rename_i hless
          -- swap i with its right child 2i+2 and recurse there
          refine heapDownAux_isHeap ho fuel _ (2 * i + 2) n
            (by rw [listSwap_length]; exact hnl) (by omega) ?_ ?_
          · intro k hk1 hkn hpk
            by_cases hki : k = 2 * i + 2
            · subst hki
              rw [elt_listSwap_snd l i (2 * i + 2) (by omega), parentIdx_right,
                elt_listSwap_fst l i (2 * i + 2) (by omega)]
              exact ho.asymm hless
            · by_cases hkeq : k = i
              · subst hkeq
                have hk1' : 1 ≤ k := hk1
                rw [elt_listSwap_fst l k (2 * k + 2) (by omega)]
                have hpar : parentIdx k ≠ k := by have := parentIdx_lt hk1; omega
                rw [elt_listSwap_other l k (2 * k + 2) (parentIdx k) hpar
                  (by have := parentIdx_lt hk1; omega)]
                exact h2 hk1 (2 * k + 2) (by omega) hc2n (parentIdx_right k)
              · by_cases hk21 : k = 2 * i + 1
                · subst hk21
                  rw [elt_listSwap_other l i (2 * i + 2) (2 * i + 1) (by omega) (by omega),
                    parentIdx_left, elt_listSwap_fst l i (2 * i + 2) (by omega)]
                  exact ho.asymm hc2l
                · have hpki : parentIdx k ≠ i := by
                    intro hcon
                    rw [parentIdx_eq_iff hk1] at hcon
                    omega
                  rw [elt_listSwap_other l i (2 * i + 2) k (by omega) hki,
                    elt_listSwap_other l i (2 * i + 2) (parentIdx k) hpki hpk]
                  exact h1 k hk1 hkn hpki
          · intro _ c hc1 hcn hpc
            rw [parentIdx_eq_iff hc1] at hpc
            rw [parentIdx_right, elt_listSwap_fst l i (2 * i + 2) (by omega),
              elt_listSwap_other l i (2 * i + 2) c (by omega) (by omega)]
            have := h1 c hc1 hcn
              (by intro hcon; rw [parentIdx_eq_iff hc1] at hcon; omega)
            rw [show parentIdx c = 2 * i + 2 by rw [parentIdx_eq_iff hc1]; omega] at this
            exact this
        · rename_i hless
          intro k hk1 hkn
          by_cases hpk : parentIdx k = i
          · rw [parentIdx_eq_iff hk1] at hpk
            rcases hpk with hpk | hpk
            · subst hpk
              rw [parentIdx_left]
              cases hg : less (elt l (2 * i + 1)) (elt l i) with
              | false => rfl
              | true =>
                have htr := ho.2.1 _ _ _ hc2l hg
                rw [Bool.of_not_eq_true hless] at htr
                exact absurd htr (by simp)
            · subst hpk
              rw [parentIdx_right]
              exact Bool.of_not_eq_true hless
          · exact h1 k hk1 hkn hpk
      · rename_i hcond
        have hcond' : 2 * i + 2 < n → less (elt l (2 * i + 2)) (elt l (2 * i + 1)) = false := by
          intro hin
          cases hx : less (elt l (2 * i + 2)) (elt l (2 * i + 1)) with
          | false => rfl
          | true => exact absurd ⟨hin, hx⟩ hcond
        split
        · rename_i hless
          -- swap i with its left child 2i+1 and recurse there
          refine heapDownAux_isHeap ho fuel _ (2 * i + 1) n
            (by rw [listSwap_length]; exact hnl) (by omega) ?_ ?_
          · intro k hk1 hkn hpk
            by_cases hki : k = 2 * i + 1
            · subst hki
              rw [elt_listSwap_snd l i (2 * i + 1) (by omega), parentIdx_left,
                elt_listSwap_fst l i (2 * i + 1) (by omega)]
              exact ho.asymm hless
            · by_cases hkeq : k = i
              · subst hkeq
                rw [elt_listSwap_fst l k (2 * k + 1) (by omega)]
                have hpar : parentIdx k ≠ k := by have := parentIdx_lt hk1; omega
                rw [elt_listSwap_other l k (2 * k + 1) (parentIdx k) hpar
                  (by have := parentIdx_lt hk1; omega)]
                exact h2 hk1 (2 * k + 1) (by omega) (by omega) (parentIdx_left k)
              · by_cases hk22 : k = 2 * i + 2
                · subst hk22
                  rw [elt_listSwap_other l i (2 * i + 1) (2 * i + 2) (by omega) (by omega),
                    parentIdx_right, elt_listSwap_fst l i (2 * i + 1) (by omega)]
                  exact hcond' hkn
                · have hpki : parentIdx k ≠ i := by
                    intro hcon
                    rw [parentIdx_eq_iff hk1] at hcon
                    omega
                  rw [elt_listSwap_other l i (2 * i + 1) k (by omega) hki,
                    elt_listSwap_other l i (2 * i + 1) (parentIdx k) hpki hpk]
                  exact h1 k hk1 hkn hpki
          · intro _ c hc1 hcn hpc
            rw [parentIdx_eq_iff hc1] at hpc
            rw [parentIdx_left, elt_listSwap_fst l i (2 * i + 1) (by omega),
              elt_listSwap_other l i (2 * i + 1) c (by omega) (by omega)]
            have := h1 c hc1 hcn
              (by intro hcon; rw [parentIdx_eq_iff hc1] at hcon; omega)
            rw [show parentIdx c = 2 * i + 1 by rw [parentIdx_eq_iff hc1]; omega] at this
            exact this
        · rename_i hless
          intro k hk1 hkn
          by_cases hpk : parentIdx k = i
          · rw [parentIdx_eq_iff hk1] at hpk
            rcases hpk with hpk | hpk
            · subst hpk
              rw [parentIdx_left]
              exact Bool.of_not_eq_true hless
            · subst hpk
              rw [parentIdx_right]
              exact ho.2.2 _ _ _ (hcond' hkn) (Bool.of_not_eq_true hless)
          · exact h1 k hk1 hkn hpk

/-- In a heap, the root is extremal: no element is `Less` than it. -/
theorem isHeapN_root {less : Item → Item → Bool} (ho : LessOrd less) {l : List Item} {n : ℕ}
    (hh : IsHeapN less l n) : ∀ k, k < n → less (elt l k) (elt l 0) = false := by
  intro k
  induction k using Nat.strong_induction_on with
  | _ k ih =>
    intro hkn
    match k with
    | 0 => exact ho.1 _
    | k + 1 =>
      have hp := hh (k + 1) (by omega) hkn
      have hplt : parentIdx (k + 1) < k + 1 := parentIdx_lt (by omega)
      have hup := ih (parentIdx (k + 1)) hplt (by omega)
      exact ho.2.2 _ _ _ hp hup

theorem heapPush_isHeap {less : Item → Item → Bool} (ho : LessOrd less) (l : List Item)
    (x : Item) (hh : IsHeapN less l l.length) :
    IsHeapN less (heapPush less l x) (l.length + 1) := by
  have hmain := heapUpAux_isHeap ho (l.length + 1) (l ++ [x]) l.length
    (by omega) (by simp) ?_ ?_
  · have hlen : (l ++ [x]).length = l.length + 1 := by simp
    rw [hlen] at hmain
    exact hmain
  · intro k hk1 hkl hkj
    have hklen : k < l.length := by
      simp only [List.length_append, List.length_singleton] at hkl
      omega
    have hpk : parentIdx k < l.length := by
      have := parentIdx_lt hk1
      omega
    rw [elt_append_lt l x hklen, elt_append_lt l x hpk]
    exact hh k hk1 hklen
  · intro hj c hcl hpc
    exfalso
    have hc1 : 1 ≤ c := by
      rcases Nat.eq_zero_or_pos c with h0 | hpos
      · rw [h0] at hpc
        simp only [parentIdx] at hpc
        omega
      · exact hpos
    rw [parentIdx_eq_iff hc1] at hpc
    simp only [List.length_append, List.length_singleton] at hcl
    omega

theorem heapPop_spec {less : Item → Item → Bool} (ho : LessOrd less) (l : List Item)
    (hne : l ≠ []) (hh : IsHeapN less l l.length) :
    ∃ rest, heapPop less l = some (elt l 0, rest) ∧ IsHeapN less rest rest.length ∧
      rest.length = l.length - 1 ∧ (elt l 0 :: rest).Perm l := by
  have hsome := heapPop_eq_some less l hne
  refine ⟨_, hsome, ?_, ?_, ?_⟩
  · -- the remainder is again a heap
    set n := l.length - 1 with hn
    have hlpos : 1 ≤ l.length := by
      cases l with
      | nil => exact absurd rfl hne
      | cons a t => simp
    have hswlen : (listSwap l 0 n).length = l.length := listSwap_length _ _ _
    have hdown : IsHeapN less (heapDown less (listSwap l 0 n) 0 n) n := by
      refine heapDownAux_isHeap ho n (listSwap l 0 n) 0 n (by omega) (by omega) ?_
        (by intro hcon; omega)
      intro k hk1 hkn hpk
      have hkne : k ≠ n := by omega
      have hpkn : parentIdx k ≠ n := by
        have := parentIdx_lt hk1
        omega
      rw [elt_listSwap_other l 0 n k (by omega) hkne,
        elt_listSwap_other l 0 n (parentIdx k) hpk hpkn]
      exact hh k hk1 (by omega)
    intro j hj1 hj2
    have hlen2 : (heapDown less (listSwap l 0 n) 0 n).length = l.length := by
      show (heapDownAux less _ _ _ _).length = _
      rw [heapDownAux_length, hswlen]
    have hjn : j < n := by
      have : ((heapDown less (listSwap l 0 n) 0 n).take n).length = n := by
        rw [List.length_take, hlen2]
        omega
      omega
    have hpjn : parentIdx j < n := by
      have := parentIdx_lt hj1
      omega
    rw [elt_take hjn, elt_take hpjn]
    exact hdown j hj1 hjn
  · exact (heapPop_length less l _ _ hsome).1
  · exact heapPop_perm less l _ _ hsome

theorem heapDrainAux_perm (less : Item → Item → Bool) :
    ∀ (fuel : ℕ) (l : List Item), l.length ≤ fuel → (heapDrainAux less fuel l).Perm l
  | 0, l, hf => by
    have : l = [] := List.length_eq_zero.mp (by omega)
    rw [this]
    exact List.Perm.refl _
  | fuel + 1, l, hf => by
    simp only [heapDrainAux]
    match hpop : heapPop less l with
    | none =>
      cases l with
      | nil => exact List.Perm.refl _
      | cons a t => exact absurd hpop (by rw [heapPop_eq_some less (a :: t) (by simp)]; simp)
    | some (x, rest) =>
      have hlen := (heapPop_length less l x rest hpop).1
      have hne := (heapPop_length less l x rest hpop).2
      have hlpos : 1 ≤ l.length := by
        cases l with
        | nil => exact absurd rfl hne
        | cons a t => simp
      have ih := heapDrainAux_perm less fuel rest (by omega)
      exact (ih.cons x).trans (heapPop_perm less l x rest hpop)

theorem heapDrain_perm (less : Item → Item → Bool) (l : List Item) :
    (heapDrain less l).Perm l :=
  heapDrainAux_perm less l.length l (le_refl _)

theorem heapDrainAux_sorted {less : Item → Item → Bool} (ho : LessOrd less) :
    ∀ (fuel : ℕ) (l : List Item), l.length ≤ fuel → IsHeapN less l l.length →
      (heapDrainAux less fuel l).Pairwise (fun a b => less b a = false)
  | 0, _, _, _ => List.Pairwise.nil
  | fuel + 1, l, hf, hh => by
    simp only [heapDrainAux]
    match hpop : heapPop less l with
    | none => exact List.Pairwise.nil
    | some (x, rest) =>
      have hne := (heapPop_length less l x rest hpop).2
      obtain ⟨rest', hsome', hheap', hlen', hperm'⟩ := heapPop_spec ho l hne hh
      rw [hpop] at hsome'
      injection hsome' with hpair
      injection hpair with hx hrest
      refine List.Pairwise.cons ?_ ?_
      · intro y hy
        have hyrest : y ∈ rest := (heapDrainAux_perm less fuel rest (by
          rw [← hrest] at hlen'
          omega)).mem_iff.mp hy
        have hyl : y ∈ l := by
          refine hperm'.mem_iff.mp ?_
          rw [hrest] at hyrest
          exact List.mem_cons_of_mem _ hyrest
        obtain ⟨k, hkl, hky⟩ := elt_of_mem hyl
        rw [← hky, hx]
        exact isHeapN_root ho hh k hkl
      · refine heapDrainAux_sorted ho fuel rest (by
          have := (heapPop_length less l x rest hpop).1
          omega) ?_
        rw [hrest]
        exact hheap'

theorem heapDrain_sorted {less : Item → Item → Bool} (ho : LessOrd less) (l : List Item)
    (hh : IsHeapN less l l.length) :
    (heapDrain less l).Pairwise (fun a b => less b a = false) :=
  heapDrainAux_sorted ho l.length l (le_refl _) hh

theorem popN_eq_take_drain (less : Item → Item → Bool) :
    ∀ (k : ℕ) (l : List Item), popN less k l = (heapDrain less l).take k
  | 0, l => rfl
  | k + 1, l => by
    simp only [popN, heapDrain]
    match hpop : heapPop less l with
    | none =>
      cases l with
      | nil => simp [heapDrainAux]
      | cons a t => exact absurd hpop (by rw [heapPop_eq_some less (a :: t) (by simp)]; simp)
    | some (x, rest) =>
      have hlen := (heapPop_length less l x rest hpop).1
      have hne := (heapPop_length less l x rest hpop).2
      have hlpos : 1 ≤ l.length := by
        cases l with
        | nil => exact absurd rfl hne
        | cons a t => simp
      have hul : l.length = rest.length + 1 := by omega
      rw [hul]
      simp only [heapDrainAux, hpop, List.take_succ_cons]
      rw [popN_eq_take_drain less k rest]
      rfl

/-! ## Data model: `Node`, `SearchResult`, `HNSWIndex` (src/hnsw/node.go,
src/hnsw/hnsw.go, src/unnamed/part_009) -/

/-- `SearchResult` from src/hnsw/hnsw.go. -/
structure SearchResult where
  ID : ℤ
  Distance : ℚ
deriving DecidableEq, Repr

instance : Inhabited SearchResult := ⟨⟨0, 0⟩⟩

/-- `Node` from src/hnsw/node.go.  `connections` is one neighbor-id list per
layer, from layer `0` to layer `level` inclusive. -/
structure Node where
  id : ℤ
  vector : List ℚ
  level : ℤ
  connections : List (List ℤ)
deriving DecidableEq, Repr

/-- `NewNode` from src/hnsw/node.go: `make([][]int, level+1)` filled with
empty lists.  (For `level < -1` the Go `make` would panic; `toNat` clamps to
an empty table, a case never reached since levels are drawn non-negative.) -/
def NewNode (id : ℤ) (vector : List ℚ) (level : ℤ) : Node :=
  { id := id, vector := vector, level := level,
    connections := List.replicate (level + 1).toNat [] }

/-- `Node.GetConnections`: `nil` (here `[]`) when `level` is out of range. -/
def Node.GetConnections (n : Node) (level : ℤ) : List ℤ :=
  if level < 0 ∨ level ≥ (n.connections.length : ℤ) then []
  else n.connections.getD level.toNat []

/-- `Node.AddConnection`: append a neighbor id, no-op when out of range. -/
def Node.AddConnection (n : Node) (level : ℤ) (neighborID : ℤ) : Node :=
  if level < 0 ∨ level ≥ (n.connections.length : ℤ) then n
  else { n with connections :=
    n.connections.set level.toNat ((n.connections.getD level.toNat []) ++ [neighborID]) }

/-- `Node.SetConnections`: replace a layer's list, no-op when out of range. -/
def Node.SetConnections (n : Node) (level : ℤ) (neighbors : List ℤ) : Node :=
  if level < 0 ∨ level ≥ (n.connections.length : ℤ) then n
  else { n with connections := n.connections.set level.toNat neighbors }

/-- `Node.ConnectionCount`: `0` when out of range. -/
def Node.ConnectionCount (n : Node) (level : ℤ) : ℕ :=
  if level < 0 ∨ level ≥ (n.connections.length : ℤ) then 0
  else (n.connections.getD level.toNat []).length

/-- `HNSWIndex` from src/hnsw/hnsw.go / src/unnamed/part_009.  The locks and
the RNG are concurrency/randomness artefacts with no sequential content: the
embedding is of single-threaded executions, and the randomly drawn level is
passed in explicitly where needed.  `ml` is only read by `randomLevel` and is
dropped with the RNG. -/
structure HNSWIndex where
  M : ℤ
  Mmax : ℤ
  Mmax0 : ℤ
  efConstruction : ℤ
  dimension : ℤ
  nodes : List Node
  entryPoint : ℤ
  maxLevel : ℤ
  distFunc : List ℚ → List ℚ → ℚ

/-- `Config` from src/hnsw/hnsw.go.  `Seed` only feeds the RNG and is kept
for completeness; `DistanceFunc` cannot be `nil` in the embedding, so the
`nil`-defaulting branch of `NewHNSW` is pre-resolved by the caller. -/
structure Config where
  M : ℤ
  EfConstruction : ℤ
  Dimension : ℤ
  DistanceFunc : List ℚ → List ℚ → ℚ
  Seed : ℤ

/-- `NewHNSW` from src/hnsw/hnsw.go (defaulting of `M` and `EfConstruction`,
`Mmax = M`, `Mmax0 = 2*M`, empty arena, `-1` sentinels). -/
def NewHNSW (config : Config) : HNSWIndex :=
  let M := if config.M ≤ 0 then 16 else config.M
  let efC := if config.EfConstruction ≤ 0 then 200 else config.EfConstruction
  { M := M, Mmax := M, Mmax0 := M * 2, efConstruction := efC,
    dimension := config.Dimension, nodes := [], entryPoint := -1, maxLevel := -1,
    distFunc := config.DistanceFunc }

/-- `h.nodes[i]` (Go panics out of range; the embedding returns an inert
default node with no vector, no layers and level `-1`, and every theorem that
depends on a lookup keeps ids in range). -/
def HNSWIndex.getNode (h : HNSWIndex) (i : ℤ) : Node :=
  h.nodes.getD i.toNat (NewNode 0 [] (-1))

/-- Write back node `i` (the Go code mutates the arena's `*Node` in place). -/
def HNSWIndex.updateNode (h : HNSWIndex) (i : ℤ) (f : Node → Node) : HNSWIndex :=
  if i < 0 then h
  else { h with nodes := h.nodes.set i.toNat (f (h.getNode i)) }

/-- `Len` from src/hnsw/hnsw.go. -/
def HNSWIndex.Len (h : HNSWIndex) : ℕ := h.nodes.length

/-! ## `searchLayer` (src/unnamed/part_007) -/

/-- The in-loop state of `searchLayer`: the visited set (Go `map[int]bool`),
the candidate heap and the result heap.  NOTE (source fidelity): in the Go
code *both* heaps are of type `MaxHeap`, i.e. the candidate set pops the
farthest candidate, not the nearest; see the C1 analysis. -/
structure SLState where
  visited : List ℤ
  candidates : List Item
  results : List Item
deriving Repr

/-- The body of `searchLayer`'s neighbor loop for one `neighborID`. -/
def slVisit (h : HNSWIndex) (query : List ℚ) (ef : ℤ) (st : SLState)
    (neighborID : ℤ) : SLState :=
  if st.visited.contains neighborID then st
  else
    let visited := st.visited ++ [neighborID]
    let dist := h.distFunc query (h.getNode neighborID).vector
    if (st.results.length : ℤ) < ef then
      { visited := visited,
        candidates := heapPush maxLess st.candidates ⟨neighborID, dist⟩,
        results := heapPush maxLess st.results ⟨neighborID, dist⟩ }
    else
      match heapPeek st.results with
      | none => { st with visited := visited }
      | some furthest =>
        if dist < furthest.priority then
          let candidates := heapPush maxLess st.candidates ⟨neighborID, dist⟩
          let results := heapPush maxLess st.results ⟨neighborID, dist⟩
          let results :=
            if (results.length : ℤ) > ef then
              match heapPop maxLess results with
              | none => results
              | some (_, rest) => rest
            else results
          { visited := visited, candidates := candidates, results := results }
        else { st with visited := visited }

/-- The `for candidates.Len() > 0` loop of `searchLayer`, with fuel.  Each
iteration pops one candidate; every id enters the candidate heap at most once
(ids are pushed only when freshly visited), so any fuel at least
`1 + Σ layer-adjacency lengths` runs the loop to completion. -/
def slLoop (h : HNSWIndex) (query : List ℚ) (ef : ℤ) (level : ℤ) :
    ℕ → SLState → SLState
  | 0, st => st
  | fuel + 1, st =>
    match heapPop maxLess st.candidates with
    | none => st
    | some (current, candRest) =>
      let st1 : SLState := { st with candidates := candRest }
      let stop : Bool :=
        match heapPeek st.results with
        | some furthest => decide (current.priority > furthest.priority)
        | none => false
      if stop then st1
      else
        let neighborsCopy := (h.getNode current.value).GetConnections level
        let st2 := neighborsCopy.foldl (slVisit h query ef) st1
        slLoop h query ef level fuel st2

/-- Fuel for `slLoop`: one iteration per possible candidate push. -/
def slFuel (h : HNSWIndex) (level : ℤ) : ℕ :=
  1 + (h.nodes.map (fun n => (n.GetConnections level).length)).sum

/-- `searchLayer` from src/unnamed/part_007: initialise both heaps with the
entry point, run the greedy loop, then drain the result max-heap backwards
into an ascending array. -/
def HNSWIndex.searchLayer (h : HNSWIndex) (query : List ℚ) (ep : ℤ) (ef : ℤ)
    (level : ℤ) : List SearchResult :=
  let epDist := h.distFunc query (h.getNode ep).vector
  let st0 : SLState :=
    { visited := [ep],
      candidates := heapPush maxLess [] ⟨ep, epDist⟩,
      results := heapPush maxLess [] ⟨ep, epDist⟩ }
  let stF := slLoop h query ef level (slFuel h level) st0
  ((heapDrain maxLess stF.results).reverse).map (fun it => ⟨it.value, it.priority⟩)

/-! ## `selectNeighborsHeuristic` (src/unnamed/part_008) -/

/-- `selectNeighborsHeuristic`: identity when `len(candidates) <= m`,
otherwise push everything through the min-heap `PriorityQueue` and pop the
`m` closest.  (`query` is unused by the implemented simple strategy.) -/
def selectNeighborsHeuristic (query : List ℚ) (candidates : List SearchResult)
    (m : ℤ) : List SearchResult :=
  if (candidates.length : ℤ) ≤ m then candidates
  else
    let pq := candidates.foldl (fun pq c => heapPush minLess pq ⟨c.ID, c.Distance⟩) []
    (popN minLess m.toNat pq).map (fun it => ⟨it.value, it.priority⟩)

/-! ## `insert` (src/unnamed/part_008) -/

/-- Phase 1 of `insert`: `for lc := maxLvl; lc > newNodeLevel; lc--`, greedy
`ef = 1` descent updating `currentNearest` to `searchLayer(...)[0].ID`; the
iteration count is passed as fuel (`(maxLvl - newNodeLevel).toNat`).  The
`[0]` index is embedded with a junk default; `searchLayer` provably never
returns an empty slice. -/
def phase1 (h : HNSWIndex) (q : List ℚ) : ℕ → ℤ → ℤ → ℤ
  | 0, _, cur => cur
  | k + 1, lc, cur =>
    phase1 h q k (lc - 1) ((h.searchLayer q cur 1 lc).headD ⟨0, 0⟩).ID

/-- One iteration of `insert`'s neighbor loop at layer `lc`: add the edge
from the new node, add the reciprocal edge, and re-prune the neighbor if its
connection count now exceeds the bound. -/
def linkNeighbor (lc : ℤ) (newNodeID : ℤ) (h : HNSWIndex)
    (neighbor : SearchResult) : HNSWIndex :=
  let h1 := h.updateNode newNodeID (fun n => n.AddConnection lc neighbor.ID)
  let h2 := h1.updateNode neighbor.ID (fun n => n.AddConnection lc newNodeID)
  let neighborNode := h2.getNode neighbor.ID
  let maxConn := if lc = 0 then h2.Mmax0 else h2.Mmax
  if (neighborNode.ConnectionCount lc : ℤ) > maxConn then
    let neighborConnections := neighborNode.GetConnections lc
    let candidatesForPrune := neighborConnections.map
      (fun connID => SearchResult.mk connID
        (h2.distFunc neighborNode.vector (h2.getNode connID).vector))
    let prunedNeighbors := selectNeighborsHeuristic neighborNode.vector
      candidatesForPrune maxConn
    let prunedIDs := prunedNeighbors.map (fun n => n.ID)
    h2.updateNode neighbor.ID (fun n => n.SetConnections lc prunedIDs)
  else h2

/-- Phase 2 of `insert`: `for lc := min(newNodeLevel, maxLvl); lc >= 0; lc--`,
searching the layer, selecting up to `m` neighbors and linking them; the
iteration count is passed as fuel (`(min newNodeLevel maxLvl + 1).toNat`).
Returns the updated index and the final `currentNearest`. -/
def phase2 (q : List ℚ) (newNodeID : ℤ) : ℕ → ℤ → ℤ → HNSWIndex → HNSWIndex × ℤ
  | 0, _, cur, h => (h, cur)
  | k + 1, lc, cur, h =>
    let candidates := h.searchLayer q cur h.efConstruction lc
    let m := if lc = 0 then h.Mmax0 else h.Mmax
    let neighbors := selectNeighborsHeuristic q candidates m
    let h' := neighbors.foldl (linkNeighbor lc newNodeID) h
    let cur' := if neighbors.length > 0 then (neighbors.headD ⟨0, 0⟩).ID else cur
    phase2 q newNodeID k (lc - 1) cur' h'

/-- The edge-building part of `insert` (everything before the entry-point
update): read the entry point and max level, phase-1 descent, phase-2
connection building. -/
def insertEdges (h : HNSWIndex) (newNodeID : ℤ) : HNSWIndex :=
  let ep := h.entryPoint
  let maxLvl := h.maxLevel
  let newNode := h.getNode newNodeID
  let newNodeLevel := newNode.level
  let q := newNode.vector
  let currentNearest := phase1 h q (maxLvl - newNodeLevel).toNat maxLvl ep
  let start := min newNodeLevel maxLvl
  (phase2 q newNodeID (start + 1).toNat start currentNearest h).1

/-- `insert` from src/unnamed/part_008: build edges, then update the global
entry point and max level only if the new node's level is strictly higher. -/
def HNSWIndex.insert (h : HNSWIndex) (newNodeID : ℤ) : HNSWIndex :=
  let newNodeLevel := (h.getNode newNodeID).level
  let h2 := insertEdges h newNodeID
  if newNodeLevel > h.maxLevel then
    { h2 with entryPoint := newNodeID, maxLevel := newNodeLevel }
  else h2

/-! ## `Add`, `Search`, errors, distances -/

/-- The two recoverable error kinds (`ErrDimensionMismatch`, `ErrEmptyIndex`;
referenced from src/hnsw/hnsw.go and src/hnsw/hnsw_test.go). -/
inductive HNSWError where
  | dimensionMismatch
  | emptyIndex
deriving DecidableEq, Repr

/-- `Add` from src/hnsw/hnsw.go.  The dimension check and the
`(-1, ErrDimensionMismatch)` early return are in the source; the remainder of
the body after `nodeID := len(h.nodes)` is an unfinished `todo` there.
Modelled from the spec: allocate a `Node` with the fresh sequential id and
the drawn `level`, append it to the arena, then run `insert` (spec §4.5;
`insert` itself handles the first-node case via the `-1` sentinels).  The
random level draw happens before the node is created, so the level is an
explicit argument here. -/
def HNSWIndex.Add (h : HNSWIndex) (vector : List ℚ) (level : ℤ) :
    HNSWIndex × ℤ × Option HNSWError :=
  if (vector.length : ℤ) ≠ h.dimension then (h, -1, some .dimensionMismatch)
  else
    let nodeID : ℤ := (h.nodes.length : ℤ)
    let h1 := { h with nodes := h.nodes ++ [NewNode nodeID vector level] }
    (h1.insert nodeID, nodeID, none)

/-- Modelled from the spec: `Search` is missing from the source
(src/hnsw/hnsw.go line 92 is `// todo func Search`).  Spec §4.6: fail with
`EmptyIndex` on an empty index, `DimensionMismatch` on a wrong-length query,
otherwise widen `ef` to `max ef k`, descend greedily with `ef = 1` from the
top layer down to layer 1, run `searchLayer` at layer 0 with the widened
`ef`, and return the closest `k` results. -/
def HNSWIndex.Search (h : HNSWIndex) (query : List ℚ) (k ef : ℤ) :
    List SearchResult × Option HNSWError :=
  if h.Len = 0 then ([], some .emptyIndex)
  else if (query.length : ℤ) ≠ h.dimension then ([], some .dimensionMismatch)
  else
    let efEff := max ef k
    let cur := phase1 h query h.maxLevel.toNat h.maxLevel h.entryPoint
    ((h.searchLayer query cur efEff 0).take k.toNat, none)

/-- `L2Distance` from src/unnamed/part_009: panic on length mismatch (`none`
here), otherwise the running sum `sum += diff * diff` over the common
indices. -/
def L2Distance (a b : List ℚ) : Option ℚ :=
  if a.length ≠ b.length then none
  else some ((a.zip b).foldl (fun sum p => sum + (p.1 - p.2) * (p.1 - p.2)) 0)

/-- A sequence of sequential `Add` calls starting from a fresh index. -/
def addSeq (h : HNSWIndex) (items : List (List ℚ × ℤ)) : HNSWIndex :=
  items.foldl (fun h p => (h.Add p.1 p.2).1) h

/-! ## Frame lemmas: `insert` only mutates `nodes` (and, at the very end,
`entryPoint` / `maxLevel`) -/

/-- All index fields except the node contents agree between `h` and `h'`
(node mutation keeps the arena length). -/
def SameShape (h h' : HNSWIndex) : Prop :=
  h'.M = h.M ∧ h'.Mmax = h.Mmax ∧ h'.Mmax0 = h.Mmax0 ∧
  h'.efConstruction = h.efConstruction ∧ h'.dimension = h.dimension ∧
  h'.entryPoint = h.entryPoint ∧ h'.maxLevel = h.maxLevel ∧
  h'.distFunc = h.distFunc ∧ h'.nodes.length = h.nodes.length

theorem sameShape_refl (h : HNSWIndex) : SameShape h h :=
  ⟨rfl, rfl, rfl, rfl, rfl, rfl, rfl, rfl, rfl⟩

theorem sameShape_trans {h1 h2 h3 : HNSWIndex} (a : SameShape h1 h2)
    (b : SameShape h2 h3) : SameShape h1 h3 := by
  obtain ⟨a1, a2, a3, a4, a5, a6, a7, a8, a9⟩ := a
  obtain ⟨b1, b2, b3, b4, b5, b6, b7, b8, b9⟩ := b
  exact ⟨b1.trans a1, b2.trans a2, b3.trans a3, b4.trans a4, b5.trans a5,
    b6.trans a6, b7.trans a7, b8.trans a8, b9.trans a9⟩

theorem updateNode_sameShape (h : HNSWIndex) (i : ℤ) (f : Node → Node) :
    SameShape h (h.updateNode i f) := by
  simp only [HNSWIndex.updateNode]
  split
  · exact sameShape_refl h
  · exact ⟨rfl, rfl, rfl, rfl, rfl, rfl, rfl, rfl, by simp⟩

theorem linkNeighbor_sameShape (lc newNodeID : ℤ) (h : HNSWIndex)
    (nb : SearchResult) : SameShape h (linkNeighbor lc newNodeID h nb) := by
  simp only [linkNeighbor]
  split <;> split
  · exact sameShape_trans
      (sameShape_trans (updateNode_sameShape _ _ _) (updateNode_sameShape _ _ _))
      (updateNode_sameShape _ _ _)
  · exact sameShape_trans (updateNode_sameShape _ _ _) (updateNode_sameShape _ _ _)
  · exact sameShape_trans
      (sameShape_trans (updateNode_sameShape _ _ _) (updateNode_sameShape _ _ _))
      (updateNode_sameShape _ _ _)
  · exact sameShape_trans (updateNode_sameShape _ _ _) (updateNode_sameShape _ _ _)

theorem foldl_linkNeighbor_sameShape (lc newNodeID : ℤ) :
    ∀ (nbs : List SearchResult) (h : HNSWIndex),
      SameShape h (nbs.foldl (linkNeighbor lc newNodeID) h)
  | [], h => sameShape_refl h
  | nb :: nbs, h =>
    sameShape_trans (linkNeighbor_sameShape lc newNodeID h nb)
      (foldl_linkNeighbor_sameShape lc newNodeID nbs _)

theorem phase2_sameShape (q : List ℚ) (newNodeID : ℤ) :
    ∀ (k : ℕ) (lc cur : ℤ) (h : HNSWIndex),
      SameShape h (phase2 q newNodeID k lc cur h).1
  | 0, _, _, h => sameShape_refl h
  | k + 1, lc, cur, h => by
    simp only [phase2]
    exact sameShape_trans (foldl_linkNeighbor_sameShape lc newNodeID _ h)
      (phase2_sameShape q newNodeID k _ _ _)

theorem insertEdges_sameShape (h : HNSWIndex) (newNodeID : ℤ) :
    SameShape h (insertEdges h newNodeID) :=
  phase2_sameShape _ _ _ _ _ _

/-! ## Claim theorems -/

theorem l2_foldl_add (f : ℚ × ℚ → ℚ) :
    ∀ (l : List (ℚ × ℚ)) (c : ℚ), l.foldl (fun s p => s + f p) c = c + (l.map f).sum
  | [], c => by simp
  | p :: l, c => by
    simp only [List.foldl_cons, List.map_cons, List.sum_cons]
    rw [l2_foldl_add f l (c + f p)]
    ring

theorem l2_zip_sum :
    ∀ (a b : List ℚ), a.length = b.length →
      ((a.zip b).map (fun p => (p.1 - p.2) * (p.1 - p.2))).sum =
        ∑ i ∈ Finset.range a.length, (a.getD i 0 - b.getD i 0) ^ 2
  | [], _, _ => by simp
  | x :: a', [], hab => by simp at hab
  | x :: a', y :: b', hab => by
    simp only [List.zip_cons_cons, List.map_cons, List.sum_cons, List.length_cons]
    rw [Finset.sum_range_succ']
    simp only [List.getD_cons_succ, List.getD_cons_zero]
    rw [l2_zip_sum a' b' (by simpa using hab)]
    ring

/-- C8: for equal-length vectors, `L2Distance` is the sum over all dimensions
of the squared coordinate differences (no square root). -/
theorem L2Distance_eq_sum_sq (a b : List ℚ) (hab : a.length = b.length) :
    L2Distance a b = some (∑ i ∈ Finset.range a.length, (a.getD i 0 - b.getD i 0) ^ 2) := by
  simp only [L2Distance]
  rw [if_neg (by omega)]
  congr 1
  rw [l2_foldl_add, l2_zip_sum a b hab, zero_add]

/-- C8 witness: `L2Distance [1,2,3] [4,5,6] = 27`. -/
theorem L2Distance_eq_sum_sq_witness : L2Distance [1, 2, 3] [4, 5, 6] = some 27 := by
  rw [L2Distance_eq_sum_sq [1, 2, 3] [4, 5, 6] rfl]
  norm_num [Finset.sum_range_succ]

/-- C10: for a node whose connection table has one list per layer `0..level`
(as built by `NewNode`), every accessor is total and a no-op outside that
range: `GetConnections` returns nil, `ConnectionCount` returns 0, and
`AddConnection` / `SetConnections` leave the node unchanged. -/
theorem node_accessors_out_of_range (n : Node) (L : ℤ)
    (hlen : (n.connections.length : ℤ) = n.level + 1) (hL : L < 0 ∨ n.level < L) :
    n.GetConnections L = [] ∧ n.ConnectionCount L = 0 ∧
    (∀ x, n.AddConnection L x = n) ∧ (∀ xs, n.SetConnections L xs = n) := by
  have hcond : L < 0 ∨ L ≥ (n.connections.length : ℤ) := by omega
  refine ⟨?_, ?_, ?_, ?_⟩
  · simp only [Node.GetConnections, if_pos hcond]
  · simp only [Node.ConnectionCount, if_pos hcond]
  · intro x
    simp only [Node.AddConnection, if_pos hcond]
  · intro xs
    simp only [Node.SetConnections, if_pos hcond]

/-- C10 witness at a concrete node and out-of-range levels. -/
theorem node_accessors_out_of_range_witness :
    (NewNode 0 [] 2).GetConnections 5 = [] ∧
    (NewNode 0 [] 2).ConnectionCount 5 = 0 ∧
    (NewNode 0 [] 2).AddConnection 5 7 = NewNode 0 [] 2 ∧
    (NewNode 0 [] 2).SetConnections (-1) [1, 2] = NewNode 0 [] 2 := by
  have h5 := node_accessors_out_of_range (NewNode 0 [] 2) 5 (by decide) (by decide)
  have hm1 := node_accessors_out_of_range (NewNode 0 [] 2) (-1) (by decide) (by decide)
  exact ⟨h5.1, h5.2.1, h5.2.2.1 7, hm1.2.2.2 [1, 2]⟩

/-- C6: `Add` with a wrong-length vector returns `(-1, DimensionMismatch)`
and leaves the index (hence `Len` and every node) unchanged. -/
theorem Add_dimension_mismatch (h : HNSWIndex) (v : List ℚ) (lvl : ℤ)
    (hv : (v.length : ℤ) ≠ h.dimension) :
    h.Add v lvl = (h, -1, some HNSWError.dimensionMismatch) ∧
    ((h.Add v lvl).1.Len = h.Len ∧ (h.Add v lvl).1.nodes = h.nodes) := by
  have hmain : h.Add v lvl = (h, -1, some HNSWError.dimensionMismatch) := by
    simp only [HNSWIndex.Add, if_pos hv]
  exact ⟨hmain, by rw [hmain], by rw [hmain]⟩

/-- C6 witness: a 2-vector against a 3-dimensional index. -/
theorem Add_dimension_mismatch_witness :
    (NewHNSW ⟨16, 200, 3, (fun _ _ => 0), 1⟩).Add [1, 2] 0 =
      (NewHNSW ⟨16, 200, 3, (fun _ _ => 0), 1⟩, -1, some HNSWError.dimensionMismatch) ∧
    ((NewHNSW ⟨16, 200, 3, (fun _ _ => 0), 1⟩).Add [1, 2] 0).1.Len =
      (NewHNSW ⟨16, 200, 3, (fun _ _ => 0), 1⟩).Len :=
  ⟨(Add_dimension_mismatch _ [1, 2] 0 (by decide)).1,
    (Add_dimension_mismatch _ [1, 2] 0 (by decide)).2.1⟩

/-- C7: `Search` on an empty index returns `EmptyIndex` and no results, for
every query (the `Search` body is modelled from the spec, the source has only
a todo stub). -/
theorem Search_empty_index (h : HNSWIndex) (q : List ℚ) (k ef : ℤ)
    (hlen : h.Len = 0) : h.Search q k ef = ([], some HNSWError.emptyIndex) := by
  simp only [HNSWIndex.Search, if_pos hlen]

/-- C7 witness: a freshly created index. -/
theorem Search_empty_index_witness :
    (NewHNSW ⟨16, 200, 2, (fun _ _ => 0), 1⟩).Search [3, 4] 10 0 =
      ([], some HNSWError.emptyIndex) :=
  Search_empty_index _ [3, 4] 10 0 rfl

/-- C5: `insert` updates `entryPoint` and `maxLevel` exactly when the new
node's level is strictly greater than the previous `maxLevel` (and leaves
them untouched otherwise), and the final node/edge state is exactly the one
produced by the edge-building phases, which read only the pre-update entry
point and max level. -/
theorem insert_entry_point_update (h : HNSWIndex) (id : ℤ) :
    (h.insert id).entryPoint =
      (if (h.getNode id).level > h.maxLevel then id else h.entryPoint) ∧
    (h.insert id).maxLevel =
      (if (h.getNode id).level > h.maxLevel then (h.getNode id).level else h.maxLevel) ∧
    (h.insert id).nodes = (insertEdges h id).nodes := by
  have hsh := insertEdges_sameShape h id
  simp only [HNSWIndex.insert]
  split
  · exact ⟨rfl, rfl, rfl⟩
  · exact ⟨hsh.2.2.2.2.2.1, hsh.2.2.2.2.2.2.1, rfl⟩

/-! ## `searchLayer` invariants: the result heap is a nonempty max-heap of at
most `ef` items -/

/-- Loop invariant of `searchLayer`: the result set is a well-formed
max-heap, never empties, and (for `ef ≥ 1`) holds at most `ef` items. -/
def SLInv (ef : ℤ) (st : SLState) : Prop :=
  IsHeapN maxLess st.results st.results.length ∧ 1 ≤ st.results.length ∧
  (1 ≤ ef → (st.results.length : ℤ) ≤ ef)

theorem slVisit_inv (h : HNSWIndex) (q : List ℚ) (ef : ℤ) (st : SLState)
    (nid : ℤ) (hinv : SLInv ef st) : SLInv ef (slVisit h q ef st nid) := by
  obtain ⟨hheap, hpos, hbound⟩ := hinv
  simp only [slVisit]
  split
  · exact ⟨hheap, hpos, hbound⟩
  · split
    · rename_i hlt
      refine ⟨?_, ?_, ?_⟩
      · rw [show (heapPush maxLess st.results
          ⟨nid, h.distFunc q (h.getNode nid).vector⟩).length = st.results.length + 1 from
          heapPush_length _ _ _]
        exact heapPush_isHeap maxLess_ord st.results _ hheap
      · rw [heapPush_length]
        omega
      · intro hef
        rw [heapPush_length]
        push_cast
        push_cast at hlt
        omega
    · rename_i hge
      split
      · exact ⟨hheap, hpos, hbound⟩
      · rename_i furthest hpeek
        split
        · rename_i hdist
          split
          · rename_i hover
            -- push made the heap one over `ef`: pop its max
            have hpushheap : IsHeapN maxLess (heapPush maxLess st.results
                ⟨nid, h.distFunc q (h.getNode nid).vector⟩)
                (heapPush maxLess st.results
                  ⟨nid, h.distFunc q (h.getNode nid).vector⟩).length := by
              rw [heapPush_length]
              exact heapPush_isHeap maxLess_ord st.results _ hheap
            have hpushne : heapPush maxLess st.results
                ⟨nid, h.distFunc q (h.getNode nid).vector⟩ ≠ [] := by
              intro hcon
              have := heapPush_length maxLess st.results
                ⟨nid, h.distFunc q (h.getNode nid).vector⟩
              rw [hcon] at this
              simp at this
            obtain ⟨rest, hsome, hrheap, hrlen, _⟩ :=
              heapPop_spec maxLess_ord _ hpushne hpushheap
            rw [hsome]
            refine ⟨hrheap, ?_, ?_⟩
            · rw [hrlen, heapPush_length]
              omega
            · intro hef
              rw [hrlen, heapPush_length]
              have := hbound hef
              push_cast
              push_cast at this
              omega
          · rename_i hover
            refine ⟨?_, ?_, ?_⟩
            · rw [show (heapPush maxLess st.results
                ⟨nid, h.distFunc q (h.getNode nid).vector⟩).length =
                st.results.length + 1 from heapPush_length _ _ _]
              exact heapPush_isHeap maxLess_ord st.results _ hheap
            · rw [heapPush_length]
              omega
            · intro _
              rw [heapPush_length] at hover ⊢
              push_cast
              push_cast at hover
              omega
        · exact ⟨hheap, hpos, hbound⟩

theorem foldl_slVisit_inv (h : HNSWIndex) (q : List ℚ) (ef : ℤ) :
    ∀ (ids : List ℤ) (st : SLState), SLInv ef st →
      SLInv ef (ids.foldl (slVisit h q ef) st)
  | [], _, hinv => hinv
  | nid :: ids, st, hinv =>
    foldl_slVisit_inv h q ef ids _ (slVisit_inv h q ef st nid hinv)

theorem slLoop_inv (h : HNSWIndex) (q : List ℚ) (ef level : ℤ) :
    ∀ (fuel : ℕ) (st : SLState), SLInv ef st →
      SLInv ef (slLoop h q ef level fuel st)
  | 0, _, hinv => hinv
  | fuel + 1, st, hinv => by
    simp only [slLoop]
    split
    · exact hinv
    · split
      · exact hinv
      · exact slLoop_inv h q ef level fuel _
          (foldl_slVisit_inv h q ef _ _ hinv)

theorem searchLayer_inv (h : HNSWIndex) (q : List ℚ) (ep ef level : ℤ) :
    SLInv ef (slLoop h q ef level (slFuel h level)
      { visited := [ep],
        candidates := heapPush maxLess [] ⟨ep, h.distFunc q (h.getNode ep).vector⟩,
        results := heapPush maxLess [] ⟨ep, h.distFunc q (h.getNode ep).vector⟩ }) := by
  apply slLoop_inv
  refine ⟨?_, ?_, ?_⟩
  · intro j hj1 hj2
    rw [heapPush_length] at hj2
    simp at hj2
    omega
  · rw [heapPush_length]
    simp
  · intro hef
    rw [heapPush_length]
    simpa using hef

/-- The output of `searchLayer` is the reversed drain of the result heap. -/
theorem searchLayer_eq (h : HNSWIndex) (q : List ℚ) (ep ef level : ℤ) :
    h.searchLayer q ep ef level =
      ((heapDrain maxLess (slLoop h q ef level (slFuel h level)
        { visited := [ep],
          candidates := heapPush maxLess [] ⟨ep, h.distFunc q (h.getNode ep).vector⟩,
          results := heapPush maxLess [] ⟨ep, h.distFunc q (h.getNode ep).vector⟩ }).results).reverse).map
        (fun it => ⟨it.value, it.priority⟩) := rfl

theorem drain_rev_map_length (R : List Item) :
    (((heapDrain maxLess R).reverse).map
      (fun it => SearchResult.mk it.value it.priority)).length = R.length := by
  simp only [List.length_map, List.length_reverse]
  exact (heapDrain_perm maxLess R).length_eq

theorem drain_rev_map_sorted (R : List Item) (hh : IsHeapN maxLess R R.length) :
    (((heapDrain maxLess R).reverse).map
      (fun it => SearchResult.mk it.value it.priority)).Pairwise
      (fun a b => a.Distance ≤ b.Distance) := by
  have hdrain := heapDrain_sorted maxLess_ord R hh
  rw [List.pairwise_map, List.pairwise_reverse]
  refine hdrain.imp ?_
  intro a b hab
  show b.priority ≤ a.priority
  simpa [maxLess] using hab

/-- Helper: `searchLayer` never returns an empty slice, and with `ef ≥ 1` it
returns at most `ef` results, sorted ascending by distance. -/
theorem searchLayer_length_pos (h : HNSWIndex) (q : List ℚ) (ep ef level : ℤ) :
    1 ≤ (h.searchLayer q ep ef level).length := by
  rw [searchLayer_eq, drain_rev_map_length]
  exact (searchLayer_inv h q ep ef level).2.1

theorem searchLayer_length_le (h : HNSWIndex) (q : List ℚ) (ep ef level : ℤ)
    (hef : 1 ≤ ef) : ((h.searchLayer q ep ef level).length : ℤ) ≤ ef := by
  rw [searchLayer_eq, drain_rev_map_length]
  exact (searchLayer_inv h q ep ef level).2.2 hef

theorem searchLayer_sorted (h : HNSWIndex) (q : List ℚ) (ep ef level : ℤ) :
    (h.searchLayer q ep ef level).Pairwise (fun a b => a.Distance ≤ b.Distance) := by
  rw [searchLayer_eq]
  exact drain_rev_map_sorted _ (searchLayer_inv h q ep ef level).1

/-- C9: whenever the entry-point id refers to an existing node, `searchLayer`
returns a non-empty slice (the entry point is seeded into the result heap and
the result heap never empties), so `searchLayer(...)[0]` in `insert`'s
phase-1 descent is always in bounds. -/
theorem searchLayer_ne_nil (h : HNSWIndex) (q : List ℚ) (ep ef level : ℤ)
    (hep0 : 0 ≤ ep) (hep1 : ep < (h.nodes.length : ℤ)) :
    h.searchLayer q ep ef level ≠ [] := by
  have := searchLayer_length_pos h q ep ef level
  intro hcon
  rw [hcon] at this
  simp at this

/-- C9 witness: a singleton index. -/
theorem searchLayer_ne_nil_witness :
    (HNSWIndex.mk 16 16 32 200 1 [⟨0, [5], 0, [[]]⟩] 0 0 (fun _ v => v.headD 0)).searchLayer
      [0] 0 1 0 ≠ [] :=
  searchLayer_ne_nil _ [0] 0 1 0 (by decide) (by decide)

/-- C3: for a valid entry point and `ef ≥ 1`, `searchLayer` returns at most
`ef` results, sorted ascending by distance (closest first). -/
theorem searchLayer_bounded_sorted (h : HNSWIndex) (q : List ℚ) (ep ef level : ℤ)
    (hep0 : 0 ≤ ep) (hep1 : ep < (h.nodes.length : ℤ)) (hef : 1 ≤ ef) :
    ((h.searchLayer q ep ef level).length : ℤ) ≤ ef ∧
    (h.searchLayer q ep ef level).Pairwise (fun a b => a.Distance ≤ b.Distance) :=
  ⟨searchLayer_length_le h q ep ef level hef, searchLayer_sorted h q ep ef level⟩

/-- C3 witness: the bound and sortedness at a concrete index and query. -/
theorem searchLayer_bounded_sorted_witness :
    (((HNSWIndex.mk 16 16 32 200 1
        [⟨0, [5], 0, [[1]]⟩, ⟨1, [2], 0, [[0]]⟩] 0 0 (fun _ v => v.headD 0)).searchLayer
        [0] 0 2 0).length : ℤ) ≤ 2 ∧
    ((HNSWIndex.mk 16 16 32 200 1
        [⟨0, [5], 0, [[1]]⟩, ⟨1, [2], 0, [[0]]⟩] 0 0 (fun _ v => v.headD 0)).searchLayer
        [0] 0 2 0).Pairwise (fun a b => a.Distance ≤ b.Distance) :=
  searchLayer_bounded_sorted _ [0] 0 2 0 (by decide) (by decide) (by decide)

/-! ## `selectNeighborsHeuristic` (C4) -/

theorem foldl_heapPush_isHeap {less : Item → Item → Bool} (ho : LessOrd less)
    (f : SearchResult → Item) :
    ∀ (xs : List SearchResult) (pq : List Item), IsHeapN less pq pq.length →
      IsHeapN less (xs.foldl (fun pq c => heapPush less pq (f c)) pq)
        (xs.foldl (fun pq c => heapPush less pq (f c)) pq).length
  | [], _, hh => hh
  | c :: xs, pq, hh => by
    refine foldl_heapPush_isHeap ho f xs (heapPush less pq (f c)) ?_
    rw [heapPush_length]
    exact heapPush_isHeap ho pq (f c) hh

theorem foldl_heapPush_perm (less : Item → Item → Bool) (f : SearchResult → Item) :
    ∀ (xs : List SearchResult) (pq : List Item),
      (xs.foldl (fun pq c => heapPush less pq (f c)) pq).Perm (xs.map f ++ pq)
  | [], pq => List.Perm.refl _
  | c :: xs, pq => by
    simp only [List.foldl_cons, List.map_cons, List.cons_append]
    have ih := foldl_heapPush_perm less f xs (heapPush less pq (f c))
    have hpush : (heapPush less pq (f c)).Perm (f c :: pq) := heapPush_perm less pq (f c)
    exact (ih.trans ((hpush.append_left (xs.map f)).trans List.perm_middle))

theorem map_mk_id : ∀ (cs : List SearchResult),
    cs.map (fun c => SearchResult.mk c.ID c.Distance) = cs
  | [] => rfl
  | c :: cs => by
    show SearchResult.mk c.ID c.Distance :: _ = c :: cs
    rw [map_mk_id cs]

/-- C4: `selectNeighborsHeuristic` returns the candidate list unchanged when
it has at most `m` entries, and otherwise returns exactly the `m` closest
candidates: the prefix of length `m` of a distance-sorted permutation of the
candidate list. -/
theorem selectNeighborsHeuristic_spec (q : List ℚ) (cs : List SearchResult) (m : ℤ) :
    ∃ s : List SearchResult, s.Perm cs ∧
      s.Pairwise (fun a b => a.Distance ≤ b.Distance) ∧
      selectNeighborsHeuristic q cs m =
        (if (cs.length : ℤ) ≤ m then cs else s.take m.toNat) := by
  set f : SearchResult → Item := fun c => ⟨c.ID, c.Distance⟩ with hf
  set pq := cs.foldl (fun pq c => heapPush minLess pq (f c)) [] with hpq
  have hpqheap : IsHeapN minLess pq pq.length :=
    foldl_heapPush_isHeap minLess_ord f cs [] (by intro j hj1 hj2; simp at hj2)
  have hpqperm : pq.Perm (cs.map f) := by
    have := foldl_heapPush_perm minLess f cs []
    simpa using this
  set s := (heapDrain minLess pq).map (fun it => SearchResult.mk it.value it.priority)
    with hs
  have hsperm : s.Perm cs := by
    have h1 : (heapDrain minLess pq).Perm (cs.map f) :=
      (heapDrain_perm minLess pq).trans hpqperm
    have h2 := h1.map (fun it => SearchResult.mk it.value it.priority)
    rw [hs]
    have h3 : (cs.map f).map (fun it => SearchResult.mk it.value it.priority) = cs := by
      rw [List.map_map]
      exact map_mk_id cs
    rw [h3] at h2
    exact h2
  have hssorted : s.Pairwise (fun a b => a.Distance ≤ b.Distance) := by
    rw [hs, List.pairwise_map]
    refine (heapDrain_sorted minLess_ord pq hpqheap).imp ?_
    intro a b hab
    show a.priority ≤ b.priority
    simpa [minLess] using hab
  refine ⟨s, hsperm, hssorted, ?_⟩
  by_cases hle : (cs.length : ℤ) ≤ m
  · rw [if_pos hle]
    simp only [selectNeighborsHeuristic, if_pos hle]
  · rw [if_neg hle]
    simp only [selectNeighborsHeuristic, if_neg hle]
    rw [popN_eq_take_drain, List.map_take]


/-! ## C1: the candidate heap of `searchLayer` is a max-heap -/

/-- A five-node index at layer 0 exposing `searchLayer`'s candidate-heap
direction.  Distances to the query `[0]` (the distance function simply reads
the stored coordinate): node 0 ↦ 20 (entry), node 1 ↦ 14, node 2 ↦ 6,
node 3 ↦ 8, node 4 ↦ 1; node 4 is a neighbor of node 2. -/
def exIndex : HNSWIndex :=
  { M := 16, Mmax := 16, Mmax0 := 32, efConstruction := 200, dimension := 1,
    nodes := [⟨0, [20], 0, [[1, 2, 3]]⟩, ⟨1, [14], 0, [[0]]⟩, ⟨2, [6], 0, [[0, 4]]⟩,
      ⟨3, [8], 0, [[0]]⟩, ⟨4, [1], 0, [[2]]⟩],
    entryPoint := 0, maxLevel := 0, distFunc := fun _ v => v.headD 0 }

/-- C1 (failing input): because `candidates` is a `MaxHeap`, the second loop
iteration pops the *farthest* pending candidate (node 1, distance 14) instead
of the nearest (node 2, distance 6), triggers the stop test `14 > 8` and
terminates before ever expanding node 2 — so node 4, at distance 1 the true
nearest reachable node and a neighbor of the returned node 2, is absent from
the output, and every returned distance exceeds 1.  Popping the smallest
candidate, as the claim states, would expand node 2 and return node 4
first. -/
theorem searchLayer_pops_farthest_candidate :
    exIndex.searchLayer [0] 0 2 0 = [⟨2, 6⟩, ⟨3, 8⟩] ∧
    (4 : ℤ) ∈ (exIndex.getNode 2).GetConnections 0 ∧
    exIndex.distFunc [0] (exIndex.getNode 4).vector = 1 ∧
    (∀ r ∈ exIndex.searchLayer [0] 0 2 0, r.ID ≠ 4 ∧ (1 : ℚ) < r.Distance) := by
  decide

/-! ## Machinery for C2: node-operation and membership lemmas -/

/-- The inert default node used by `getNode` lookups. -/
def dNode : Node := NewNode 0 [] (-1)

theorem getD_set_self_gen {α : Type} : ∀ (l : List α) (i : ℕ) (a d : α), i < l.length →
    (l.set i a).getD i d = a
  | _ :: _, 0, _, _, _ => rfl
  | _ :: t, i + 1, a, d, h => getD_set_self_gen t i a d (by simpa using h)

theorem getD_set_ne_gen {α : Type} : ∀ (l : List α) (i j : ℕ) (a d : α), i ≠ j →
    (l.set i a).getD j d = l.getD j d
  | [], _, _, _, _, _ => by simp
  | _ :: _, 0, 0, _, _, h => absurd rfl h
  | _ :: _, 0, _ + 1, _, _, _ => rfl
  | _ :: _, _ + 1, 0, _, _, _ => rfl
  | _ :: t, i + 1, j + 1, a, d, h => getD_set_ne_gen t i j a d (fun hc => h (by omega))

theorem NewNode_count (id : ℤ) (v : List ℚ) (lvl : ℤ) (L : ℤ) :
    (NewNode id v lvl).ConnectionCount L = 0 := by
  simp only [Node.ConnectionCount, NewNode]
  split
  · rfl
  · rw [List.getD_eq_getElem?_getD]
    rcases h : (List.replicate (lvl + 1).toNat ([] : List ℤ))[L.toNat]? with _ | x
    · rfl
    · have := List.getElem?_mem h
      rw [List.eq_of_mem_replicate this]
      rfl

theorem NewNode_conns (id : ℤ) (v : List ℚ) (lvl : ℤ) (L : ℤ) :
    (NewNode id v lvl).GetConnections L = [] := by
  simp only [Node.GetConnections, NewNode]
  split
  · rfl
  · rw [List.getD_eq_getElem?_getD]
    rcases h : (List.replicate (lvl + 1).toNat ([] : List ℤ))[L.toNat]? with _ | x
    · rfl
    · exact List.eq_of_mem_replicate (List.getElem?_mem h)

theorem AddConnection_table_length (n : Node) (lc x : ℤ) :
    (n.AddConnection lc x).connections.length = n.connections.length := by
  simp only [Node.AddConnection]
  split
  · rfl
  · simp

theorem SetConnections_table_length (n : Node) (lc : ℤ) (xs : List ℤ) :
    (n.SetConnections lc xs).connections.length = n.connections.length := by
  simp only [Node.SetConnections]
  split
  · rfl
  · simp

theorem AddConnection_conns_other (n : Node) (lc x L : ℤ) (hL : L ≠ lc) :
    (n.AddConnection lc x).GetConnections L = n.GetConnections L := by
  simp only [Node.AddConnection]
  split
  · rfl
  · rename_i hin
    simp only [Node.GetConnections, List.length_set]
    split
    · rfl
    · rename_i hin2
      have hne : lc.toNat ≠ L.toNat := by omega
      exact getD_set_ne_gen n.connections lc.toNat L.toNat _ _ hne

theorem AddConnection_count_other (n : Node) (lc x L : ℤ) (hL : L ≠ lc) :
    (n.AddConnection lc x).ConnectionCount L = n.ConnectionCount L := by
  simp only [Node.ConnectionCount, AddConnection_table_length]
  split
  · rfl
  · rename_i hin
    have := AddConnection_conns_other n lc x L hL
    simp only [Node.GetConnections] at this
    rw [if_neg (by rw [AddConnection_table_length]; omega), if_neg hin] at this
    rw [this]

theorem AddConnection_count_self (n : Node) (lc x : ℤ) :
    (n.AddConnection lc x).ConnectionCount lc ≤ n.ConnectionCount lc + 1 := by
  simp only [Node.AddConnection]
  split
  · omega
  · rename_i hin
    simp only [Node.ConnectionCount, List.length_set, if_neg hin]
    rw [getD_set_self_gen n.connections lc.toNat _ _ (by omega)]
    simp

theorem AddConnection_conns_self (n : Node) (lc x : ℤ) :
    ∀ y ∈ (n.AddConnection lc x).GetConnections lc, y ∈ n.GetConnections lc ∨ y = x := by
  intro y hy
  simp only [Node.AddConnection] at hy
  split at hy
  · exact Or.inl hy
  · rename_i hin
    simp only [Node.GetConnections, List.length_set, if_neg hin] at hy
    rw [getD_set_self_gen n.connections lc.toNat _ _ (by omega)] at hy
    simp only [List.mem_append, List.mem_singleton] at hy
    rcases hy with hy | hy
    · left
      simp only [Node.GetConnections, if_neg hin]
      exact hy
    · exact Or.inr hy

theorem SetConnections_conns_other (n : Node) (lc L : ℤ) (xs : List ℤ) (hL : L ≠ lc) :
    (n.SetConnections lc xs).GetConnections L = n.GetConnections L := by
  simp only [Node.SetConnections]
  split
  · rfl
  · rename_i hin
    simp only [Node.GetConnections, List.length_set]
    split
    · rfl
    · exact getD_set_ne_gen n.connections lc.toNat L.toNat _ _ (by omega)

theorem SetConnections_count_other (n : Node) (lc L : ℤ) (xs : List ℤ) (hL : L ≠ lc) :
    (n.SetConnections lc xs).ConnectionCount L = n.ConnectionCount L := by
  simp only [Node.ConnectionCount, SetConnections_table_length]
  split
  · rfl
  · rename_i hin
    have := SetConnections_conns_other n lc L xs hL
    simp only [Node.GetConnections] at this
    rw [if_neg (by rw [SetConnections_table_length]; omega), if_neg hin] at this
    rw [this]

theorem SetConnections_count_self_le (n : Node) (lc : ℤ) (xs : List ℤ) :
    (n.SetConnections lc xs).ConnectionCount lc ≤ max xs.length (n.ConnectionCount lc) := by
  simp only [Node.SetConnections]
  split
  · omega
  · rename_i hin
    simp only [Node.ConnectionCount, List.length_set, if_neg hin]
    rw [getD_set_self_gen n.connections lc.toNat _ _ (by omega)]
    omega

theorem SetConnections_conns_self (n : Node) (lc : ℤ) (xs : List ℤ) :
    ∀ y ∈ (n.SetConnections lc xs).GetConnections lc, y ∈ xs := by
  intro y hy
  simp only [Node.SetConnections] at hy
  split at hy
  · rename_i hin
    simp only [Node.GetConnections, if_pos hin] at hy
    simp at hy
  · rename_i hin
    simp only [Node.GetConnections, List.length_set, if_neg hin] at hy
    rw [getD_set_self_gen n.connections lc.toNat _ _ (by omega)] at hy
    exact hy

theorem ConnectionCount_pos_in_range (n : Node) (lc : ℤ)
    (h : 0 < n.ConnectionCount lc) : ¬(lc < 0 ∨ lc ≥ (n.connections.length : ℤ)) := by
  intro hcon
  simp only [Node.ConnectionCount, if_pos hcon] at h
  omega

theorem SetConnections_count_self_in_range (n : Node) (lc : ℤ) (xs : List ℤ)
    (hin : ¬(lc < 0 ∨ lc ≥ (n.connections.length : ℤ))) :
    (n.SetConnections lc xs).ConnectionCount lc = xs.length := by
  simp only [Node.SetConnections, if_neg hin]
  simp only [Node.ConnectionCount, List.length_set, if_neg hin]
  rw [getD_set_self_gen n.connections lc.toNat _ _ (by omega)]

theorem updateNode_length (h : HNSWIndex) (i : ℤ) (f : Node → Node) :
    (h.updateNode i f).nodes.length = h.nodes.length := by
  simp only [HNSWIndex.updateNode]
  split
  · rfl
  · simp

theorem updateNode_nodes_self (h : HNSWIndex) (i : ℤ) (f : Node → Node)
    (h0 : 0 ≤ i) (h1 : i.toNat < h.nodes.length) :
    (h.updateNode i f).nodes.getD i.toNat dNode = f (h.nodes.getD i.toNat dNode) := by
  simp only [HNSWIndex.updateNode, if_neg (by omega : ¬i < 0)]
  show (h.nodes.set i.toNat (f (h.getNode i))).getD i.toNat dNode = _
  rw [getD_set_self_gen h.nodes i.toNat _ dNode h1]
  rfl

theorem updateNode_nodes_other (h : HNSWIndex) (i : ℤ) (f : Node → Node) (k : ℕ)
    (hk : k ≠ i.toNat) :
    (h.updateNode i f).nodes.getD k dNode = h.nodes.getD k dNode := by
  simp only [HNSWIndex.updateNode]
  split
  · rfl
  · show (h.nodes.set i.toNat (f (h.getNode i))).getD k dNode = _
    exact getD_set_ne_gen h.nodes i.toNat k _ dNode (Ne.symm hk)

theorem getNode_eq_getD (h : HNSWIndex) (i : ℤ) :
    h.getNode i = h.nodes.getD i.toNat dNode := rfl

/-! Heap membership transports -/

theorem heapPush_mem {less : Item → Item → Bool} {l : List Item} {x y : Item}
    (hy : y ∈ heapPush less l x) : y = x ∨ y ∈ l := by
  have := (heapPush_perm less l x).mem_iff.mp hy
  simpa using this

theorem heapPop_mem {less : Item → Item → Bool} {l : List Item} {x : Item}
    {rest : List Item} (hpop : heapPop less l = some (x, rest)) :
    x ∈ l ∧ ∀ y ∈ rest, y ∈ l := by
  have hperm := heapPop_perm less l x rest hpop
  constructor
  · exact hperm.mem_iff.mp (List.mem_cons_self x rest)
  · intro y hy
    exact hperm.mem_iff.mp (List.mem_cons_of_mem x hy)

theorem heapDrain_mem {less : Item → Item → Bool} {l : List Item} {y : Item}
    (hy : y ∈ heapDrain less l) : y ∈ l :=
  (heapDrain_perm less l).mem_iff.mp hy

theorem popN_length_le (less : Item → Item → Bool) :
    ∀ (k : ℕ) (l : List Item), (popN less k l).length ≤ k
  | 0, _ => by simp [popN]
  | k + 1, l => by
    simp only [popN]
    match hpop : heapPop less l with
    | none => simp
    | some (x, rest) =>
      have := popN_length_le less k rest
      simpa using Nat.succ_le_succ this

theorem popN_mem (less : Item → Item → Bool) :
    ∀ (k : ℕ) (l : List Item), ∀ y ∈ popN less k l, y ∈ l
  | 0, _, y, hy => by simp [popN] at hy
  | k + 1, l, y, hy => by
    simp only [popN] at hy
    match hpop : heapPop less l with
    | none => rw [hpop] at hy; simp at hy
    | some (x, rest) =>
      rw [hpop] at hy
      rcases List.mem_cons.mp hy with hy | hy
      · rw [hy]
        exact (heapPop_mem hpop).1
      · exact (heapPop_mem hpop).2 y (popN_mem less k rest y hy)

/-- Every selected neighbor comes from the candidate list. -/
theorem selectNeighborsHeuristic_mem (q : List ℚ) (cs : List SearchResult) (m : ℤ) :
    ∀ r ∈ selectNeighborsHeuristic q cs m, r ∈ cs := by
  intro r hr
  simp only [selectNeighborsHeuristic] at hr
  split at hr
  · exact hr
  · simp only [List.mem_map] at hr
    obtain ⟨it, hit, hr⟩ := hr
    have h1 := popN_mem minLess _ _ it hit
    have h2 := (foldl_heapPush_perm minLess (fun c => ⟨c.ID, c.Distance⟩) cs []).mem_iff.mp h1
    rw [List.append_nil] at h2
    obtain ⟨c, hc, hcit⟩ := List.mem_map.mp h2
    rw [← hr, ← hcit]
    exact hc

/-- The selection never returns more than `max m 0` items; with `m ≥ 0`, at
most `m`. -/
theorem selectNeighborsHeuristic_length (q : List ℚ) (cs : List SearchResult) (m : ℤ)
    (hm : 0 ≤ m) : ((selectNeighborsHeuristic q cs m).length : ℤ) ≤ m := by
  simp only [selectNeighborsHeuristic]
  split
  · omega
  · rw [List.length_map]
    have := popN_length_le minLess m.toNat
      (cs.foldl (fun pq c => heapPush minLess pq ⟨c.ID, c.Distance⟩) [])
    omega

/-! `searchLayer` output membership: every returned id is the entry point or
appears in some node's layer-adjacency list -/

/-- All ids in some node's adjacency list at `level`. -/
def layerIds (h : HNSWIndex) (level : ℤ) : List ℤ :=
  (h.nodes.map (fun n => n.GetConnections level)).join

theorem getNode_conns_sub_layerIds (h : HNSWIndex) (level : ℤ) (i : ℤ) :
    ∀ x ∈ (h.getNode i).GetConnections level, x ∈ layerIds h level := by
  intro x hx
  rw [getNode_eq_getD] at hx
  rw [List.getD_eq_getElem?_getD] at hx
  rcases hget : h.nodes[i.toNat]? with _ | n
  · rw [hget] at hx
    simp only [Option.getD_none] at hx
    rw [show dNode.GetConnections level = [] from NewNode_conns 0 [] (-1) level] at hx
    simp at hx
  · rw [hget] at hx
    simp only [Option.getD_some] at hx
    have hmem : n ∈ h.nodes := List.getElem?_mem hget
    simp only [layerIds, List.mem_join]
    exact ⟨n.GetConnections level, List.mem_map_of_mem _ hmem, hx⟩

/-- Value-membership invariant of the search loop state. -/
def SLIds (h : HNSWIndex) (level : ℤ) (ep : ℤ) (st : SLState) : Prop :=
  (∀ it ∈ st.candidates, it.value = ep ∨ it.value ∈ layerIds h level) ∧
  (∀ it ∈ st.results, it.value = ep ∨ it.value ∈ layerIds h level)

theorem slVisit_ids (h : HNSWIndex) (q : List ℚ) (ef : ℤ) (level ep : ℤ)
    (st : SLState) (nid : ℤ) (hnid : nid = ep ∨ nid ∈ layerIds h level)
    (hst : SLIds h level ep st) : SLIds h level ep (slVisit h q ef st nid) := by
  obtain ⟨hc, hr⟩ := hst
  simp only [slVisit]
  split
  · exact ⟨hc, hr⟩
  · split
    · refine ⟨?_, ?_⟩
      · intro it hit
        rcases heapPush_mem hit with hit | hit
        · rw [hit]; exact hnid
        · exact hc it hit
      · intro it hit
        rcases heapPush_mem hit with hit | hit
        · rw [hit]; exact hnid
        · exact hr it hit
    · split
      · exact ⟨hc, hr⟩
      · split
        · refine ⟨?_, ?_⟩
          · intro it hit
            rcases heapPush_mem hit with hit | hit
            · rw [hit]; exact hnid
            · exact hc it hit
          · intro it hit
            split at hit
            · rename_i hover
              rcases hpopm : heapPop maxLess (heapPush maxLess st.results
                  ⟨nid, h.distFunc q (h.getNode nid).vector⟩) with _ | p
              · rw [hpopm] at hit
                rcases heapPush_mem hit with hit | hit
                · rw [hit]; exact hnid
                · exact hr it hit
              · rw [hpopm] at hit
                obtain ⟨x, rest⟩ := p
                have hsub := (heapPop_mem hpopm).2 it hit
                rcases heapPush_mem hsub with hs | hs
                · rw [hs]; exact hnid
                · exact hr it hs
            · rcases heapPush_mem hit with hit | hit
              · rw [hit]; exact hnid
              · exact hr it hit
        · exact ⟨hc, hr⟩

theorem foldl_slVisit_ids (h : HNSWIndex) (q : List ℚ) (ef level ep : ℤ) :
    ∀ (ids : List ℤ) (st : SLState),
      (∀ nid ∈ ids, nid = ep ∨ nid ∈ layerIds h level) → SLIds h level ep st →
      SLIds h level ep (ids.foldl (slVisit h q ef) st)
  | [], _, _, hst => hst
  | nid :: ids, st, hids, hst =>
    foldl_slVisit_ids h q ef level ep ids _
      (fun x hx => hids x (List.mem_cons_of_mem _ hx))
      (slVisit_ids h q ef level ep st nid (hids nid (List.mem_cons_self _ _)) hst)

theorem slLoop_ids (h : HNSWIndex) (q : List ℚ) (ef level ep : ℤ) :
    ∀ (fuel : ℕ) (st : SLState), SLIds h level ep st →
      SLIds h level ep (slLoop h q ef level fuel st)
  | 0, _, hst => hst
  | fuel + 1, st, hst => by
    simp only [slLoop]
    match hpop : heapPop maxLess st.candidates with
    | none => exact hst
    | some (current, candRest) =>
      have hrest : ∀ it ∈ candRest, it.value = ep ∨ it.value ∈ layerIds h level :=
        fun it hit => hst.1 it ((heapPop_mem hpop).2 it hit)
      have hst1 : SLIds h level ep { st with candidates := candRest } := ⟨hrest, hst.2⟩
      dsimp only
      by_cases hstop : (match heapPeek st.results with
          | some furthest => decide (current.priority > furthest.priority)
          | none => false) = true
      · rw [if_pos hstop]
        exact hst1
      · rw [if_neg hstop]
        exact slLoop_ids h q ef level ep fuel _
          (foldl_slVisit_ids h q ef level ep _ _
            (fun nid hnid => Or.inr (getNode_conns_sub_layerIds h level current.value nid hnid))
            hst1)

/-- C2 helper: every id returned by `searchLayer` is the entry point or an
id stored in some node's layer-`level` adjacency list. -/
theorem searchLayer_mem (h : HNSWIndex) (q : List ℚ) (ep ef level : ℤ) :
    ∀ r ∈ h.searchLayer q ep ef level, r.ID = ep ∨ r.ID ∈ layerIds h level := by
  intro r hr
  rw [searchLayer_eq] at hr
  simp only [List.mem_map, List.mem_reverse] at hr
  obtain ⟨it, hit, hr⟩ := hr
  have hdr := heapDrain_mem hit
  have hids := slLoop_ids h q ef level ep (slFuel h level)
    { visited := [ep],
      candidates := heapPush maxLess [] ⟨ep, h.distFunc q (h.getNode ep).vector⟩,
      results := heapPush maxLess [] ⟨ep, h.distFunc q (h.getNode ep).vector⟩ }
    (by
      constructor
      · intro x hx
        rcases heapPush_mem hx with hx | hx
        · rw [hx]; exact Or.inl rfl
        · simp at hx
      · intro x hx
        rcases heapPush_mem hx with hx | hx
        · rw [hx]; exact Or.inl rfl
        · simp at hx)
  have hfin := hids.2 it hdr
  rw [← hr]
  exact hfin

/-- The per-layer degree bound of the claim: `Mmax0` at layer 0, `Mmax`
above. -/
def bnd (Mx Mx0 : ℤ) (L : ℤ) : ℤ := if L = 0 then Mx0 else Mx

theorem updateNode_Mmax (h : HNSWIndex) (i : ℤ) (f : Node → Node) :
    (h.updateNode i f).Mmax = h.Mmax := by
  simp only [HNSWIndex.updateNode]
  split <;> rfl

theorem updateNode_Mmax0 (h : HNSWIndex) (i : ℤ) (f : Node → Node) :
    (h.updateNode i f).Mmax0 = h.Mmax0 := by
  simp only [HNSWIndex.updateNode]
  split <;> rfl

/-- One `linkNeighbor` call preserves the degree-bound bookkeeping: every
node other than the new one stays within the bound (the neighbor is re-pruned
if the reciprocal edge overflowed it), the new node gains at most one edge at
the current layer, lower layers stay untouched, and all adjacency ids stay
valid and below the new node's id on lower layers. -/
theorem linkNeighbor_step (lc N : ℤ) (nb : SearchResult) (h : HNSWIndex) (c : ℤ)
    (hMx : 0 ≤ h.Mmax) (hMx0 : 0 ≤ h.Mmax0)
    (hN0 : 0 ≤ N) (hNlen : N < (h.nodes.length : ℤ))
    (hnb0 : 0 ≤ nb.ID) (hnbN : nb.ID < N)
    (hA : ∀ k, k < h.nodes.length → k ≠ N.toNat → ∀ L : ℤ, 0 ≤ L →
      ((h.nodes.getD k dNode).ConnectionCount L : ℤ) ≤ bnd h.Mmax h.Mmax0 L)
    (hB : ∀ L : ℤ, 0 ≤ L → L ≠ lc →
      ((h.nodes.getD N.toNat dNode).ConnectionCount L : ℤ) ≤ bnd h.Mmax h.Mmax0 L)
    (hB2 : ∀ L : ℤ, L < lc → (h.nodes.getD N.toNat dNode).ConnectionCount L = 0)
    (hC : ((h.nodes.getD N.toNat dNode).ConnectionCount lc : ℤ) ≤ c)
    (hD : ∀ k, k < h.nodes.length → ∀ L : ℤ,
      ∀ x ∈ (h.nodes.getD k dNode).GetConnections L, 0 ≤ x ∧ x < (h.nodes.length : ℤ))
    (hE : ∀ k, k < h.nodes.length → ∀ L : ℤ, L < lc →
      ∀ x ∈ (h.nodes.getD k dNode).GetConnections L, x < N) :
    (∀ k, k < (linkNeighbor lc N h nb).nodes.length → k ≠ N.toNat → ∀ L : ℤ, 0 ≤ L →
      (((linkNeighbor lc N h nb).nodes.getD k dNode).ConnectionCount L : ℤ) ≤
        bnd h.Mmax h.Mmax0 L) ∧
    (∀ L : ℤ, 0 ≤ L → L ≠ lc →
      (((linkNeighbor lc N h nb).nodes.getD N.toNat dNode).ConnectionCount L : ℤ) ≤
        bnd h.Mmax h.Mmax0 L) ∧
    (∀ L : ℤ, L < lc →
      ((linkNeighbor lc N h nb).nodes.getD N.toNat dNode).ConnectionCount L = 0) ∧
    ((((linkNeighbor lc N h nb).nodes.getD N.toNat dNode).ConnectionCount lc : ℤ) ≤ c + 1) ∧
    (∀ k, k < (linkNeighbor lc N h nb).nodes.length → ∀ L : ℤ,
      ∀ x ∈ ((linkNeighbor lc N h nb).nodes.getD k dNode).GetConnections L,
        0 ≤ x ∧ x < (h.nodes.length : ℤ)) ∧
    (∀ k, k < (linkNeighbor lc N h nb).nodes.length → ∀ L : ℤ, L < lc →
      ∀ x ∈ ((linkNeighbor lc N h nb).nodes.getD k dNode).GetConnections L, x < N) := by
  have hNtoNat : N.toNat < h.nodes.length := by omega
  have hnbtoNat : nb.ID.toNat < h.nodes.length := by omega
  have hne : nb.ID.toNat ≠ N.toNat := by omega
  set h1 := h.updateNode N (fun n => n.AddConnection lc nb.ID) with hh1
  set h2 := h1.updateNode nb.ID (fun n => n.AddConnection lc N) with hh2
  have hlen1 : h1.nodes.length = h.nodes.length := updateNode_length _ _ _
  have hlen2 : h2.nodes.length = h.nodes.length := by
    rw [hh2, updateNode_length, hlen1]
  -- node contents of h2 at the three relevant position classes
  have hn2N : h2.nodes.getD N.toNat dNode =
      (h.nodes.getD N.toNat dNode).AddConnection lc nb.ID := by
    rw [hh2, updateNode_nodes_other h1 nb.ID _ N.toNat (Ne.symm hne), hh1,
      updateNode_nodes_self h N _ hN0 hNtoNat]
  have hn2nb : h2.nodes.getD nb.ID.toNat dNode =
      (h.nodes.getD nb.ID.toNat dNode).AddConnection lc N := by
    rw [hh2, updateNode_nodes_self h1 nb.ID _ hnb0 (by rw [hlen1]; exact hnbtoNat), hh1,
      updateNode_nodes_other h N _ nb.ID.toNat hne]
  have hn2other : ∀ k, k ≠ N.toNat → k ≠ nb.ID.toNat →
      h2.nodes.getD k dNode = h.nodes.getD k dNode := by
    intro k hk1 hk2
    rw [hh2, updateNode_nodes_other h1 nb.ID _ k (by omega), hh1,
      updateNode_nodes_other h N _ k (by omega)]
  have hgetnb : h2.getNode nb.ID = (h.nodes.getD nb.ID.toNat dNode).AddConnection lc N := by
    rw [getNode_eq_getD, hn2nb]
  have hbnd0 : 0 ≤ bnd h.Mmax h.Mmax0 lc := by
    simp only [bnd]
    split <;> omega
  -- the final state: h2 possibly with the neighbor pruned
  simp only [linkNeighbor]
  rw [show (h.updateNode N fun n => n.AddConnection lc nb.ID) = h1 from rfl]
  rw [show (h1.updateNode nb.ID fun n => n.AddConnection lc N) = h2 from rfl]
  rw [show (if lc = 0 then h2.Mmax0 else h2.Mmax) = bnd h.Mmax h.Mmax0 lc by
    rw [hh2, hh1, updateNode_Mmax, updateNode_Mmax, updateNode_Mmax0, updateNode_Mmax0]
    rfl]
  split
  · -- prune branch
    rename_i hover
    rw [hgetnb] at hover
    rw [hgetnb]
    set nbNode := (h.nodes.getD nb.ID.toNat dNode).AddConnection lc N with hnbNode
    set prunedIDs := (selectNeighborsHeuristic nbNode.vector
      (nbNode.GetConnections lc |>.map (fun connID => SearchResult.mk connID
        (h2.distFunc nbNode.vector (h2.getNode connID).vector)))
      (bnd h.Mmax h.Mmax0 lc)).map (fun n => n.ID) with hpruned
    have hprunedIDs_mem : ∀ x ∈ prunedIDs,
        x ∈ (h.nodes.getD nb.ID.toNat dNode).GetConnections lc ∨ x = N := by
      intro x hx
      rw [hpruned] at hx
      obtain ⟨r, hr, hrx⟩ := List.mem_map.mp hx
      have hrc := selectNeighborsHeuristic_mem _ _ _ r hr
      obtain ⟨connID, hconn, hconnr⟩ := List.mem_map.mp hrc
      have : x = connID := by rw [← hrx, ← hconnr]
      rw [this]
      exact AddConnection_conns_self _ lc N connID hconn
    have hprunedlen : (prunedIDs.length : ℤ) ≤ bnd h.Mmax h.Mmax0 lc := by
      rw [hpruned, List.length_map]
      exact selectNeighborsHeuristic_length _ _ _ hbnd0
    set h3 := h2.updateNode nb.ID (fun n => n.SetConnections lc prunedIDs) with hh3
    have hlen3 : h3.nodes.length = h.nodes.length := by
      rw [hh3, updateNode_length, hlen2]
    have hn3nb : h3.nodes.getD nb.ID.toNat dNode = nbNode.SetConnections lc prunedIDs := by
      rw [hh3, updateNode_nodes_self h2 nb.ID _ hnb0 (by rw [hlen2]; exact hnbtoNat), hn2nb]
    have hn3N : h3.nodes.getD N.toNat dNode =
        (h.nodes.getD N.toNat dNode).AddConnection lc nb.ID := by
      rw [hh3, updateNode_nodes_other h2 nb.ID _ N.toNat (Ne.symm hne), hn2N]
    have hn3other : ∀ k, k ≠ N.toNat → k ≠ nb.ID.toNat →
        h3.nodes.getD k dNode = h.nodes.getD k dNode := by
      intro k hk1 hk2
      rw [hh3, updateNode_nodes_other h2 nb.ID _ k (by omega), hn2other k hk1 hk2]
    have hinrange : ¬(lc < 0 ∨ lc ≥ (nbNode.connections.length : ℤ)) := by
      refine ConnectionCount_pos_in_range nbNode lc ?_
      omega
    have hnbcount : (h3.nodes.getD nb.ID.toNat dNode).ConnectionCount lc =
        prunedIDs.length := by
      rw [hn3nb]
      exact SetConnections_count_self_in_range nbNode lc prunedIDs hinrange
    refine ⟨?_, ?_, ?_, ?_, ?_, ?_⟩
    · intro k hk hkN L hL
      rw [hlen3] at hk
      by_cases hknb : k = nb.ID.toNat
      · subst hknb
        by_cases hLlc : L = lc
        · subst hLlc
          rw [hnbcount]
          omega
        · rw [hn3nb, SetConnections_count_other _ _ _ _ hLlc, hnbNode,
            AddConnection_count_other _ _ _ _ hLlc]
          exact hA _ hnbtoNat hne L hL
      · rw [hn3other k hkN hknb]
        exact hA k hk hkN L hL
    · intro L hL hLlc
      rw [hn3N, AddConnection_count_other _ _ _ _ hLlc]
      exact hB L hL hLlc
    · intro L hLlc
      rw [hn3N, AddConnection_count_other _ _ _ _ (by omega)]
      exact hB2 L hLlc
    · rw [hn3N]
      have := AddConnection_count_self (h.nodes.getD N.toNat dNode) lc nb.ID
      omega
    · intro k hk L x hx
      rw [hlen3] at hk
      by_cases hkN : k = N.toNat
      · subst hkN
        rw [hn3N] at hx
        by_cases hLlc : L = lc
        · subst hLlc
          rcases AddConnection_conns_self _ _ _ x hx with hx | hx
          · exact hD N.toNat hNtoNat L x hx
          · subst hx
            omega
        · rw [AddConnection_conns_other _ _ _ _ hLlc] at hx
          exact hD N.toNat hNtoNat L x hx
      · by_cases hknb : k = nb.ID.toNat
        · subst hknb
          rw [hn3nb] at hx
          by_cases hLlc : L = lc
          · subst hLlc
            have hxp := SetConnections_conns_self nbNode L prunedIDs x hx
            rcases hprunedIDs_mem x hxp with hx' | hx'
            · exact hD nb.ID.toNat hnbtoNat L x hx'
            · subst hx'
              omega
          · rw [SetConnections_conns_other _ _ _ _ hLlc, hnbNode,
              AddConnection_conns_other _ _ _ _ hLlc] at hx
            exact hD nb.ID.toNat hnbtoNat L x hx
        · rw [hn3other k hkN hknb] at hx
          exact hD k hk L x hx
    · intro k hk L hLlc x hx
      rw [hlen3] at hk
      by_cases hkN : k = N.toNat
      · subst hkN
        rw [hn3N, AddConnection_conns_other _ _ _ _ (by omega)] at hx
        exact hE N.toNat hNtoNat L hLlc x hx
      · by_cases hknb : k = nb.ID.toNat
        · subst hknb
          rw [hn3nb, SetConnections_conns_other _ _ _ _ (by omega), hnbNode,
            AddConnection_conns_other _ _ _ _ (by omega)] at hx
          exact hE nb.ID.toNat hnbtoNat L hLlc x hx
        · rw [hn3other k hkN hknb] at hx
          exact hE k hk L hLlc x hx
  · -- no-prune branch: the reciprocal edge did not overflow the neighbor
    rename_i hover
    rw [hgetnb] at hover
    push_neg at hover
    refine ⟨?_, ?_, ?_, ?_, ?_, ?_⟩
    · intro k hk hkN L hL
      rw [hlen2] at hk
      by_cases hknb : k = nb.ID.toNat
      · subst hknb
        by_cases hLlc : L = lc
        · subst hLlc
          rw [hn2nb]
          exact hover
        · rw [hn2nb, AddConnection_count_other _ _ _ _ hLlc]
          exact hA _ hnbtoNat hne L hL
      · rw [hn2other k hkN hknb]
        exact hA k hk hkN L hL
    · intro L hL hLlc
      rw [hn2N, AddConnection_count_other _ _ _ _ hLlc]
      exact hB L hL hLlc
    · intro L hLlc
      rw [hn2N, AddConnection_count_other _ _ _ _ (by omega)]
      exact hB2 L hLlc
    · rw [hn2N]
      have := AddConnection_count_self (h.nodes.getD N.toNat dNode) lc nb.ID
      omega
    · intro k hk L x hx
      rw [hlen2] at hk
      by_cases hkN : k = N.toNat
      · subst hkN
        rw [hn2N] at hx
        by_cases hLlc : L = lc
        · subst hLlc
          rcases AddConnection_conns_self _ _ _ x hx with hx | hx
          · exact hD N.toNat hNtoNat L x hx
          · subst hx
            omega
        · rw [AddConnection_conns_other _ _ _ _ hLlc] at hx
          exact hD N.toNat hNtoNat L x hx
      · by_cases hknb : k = nb.ID.toNat
        · subst hknb
          rw [hn2nb] at hx
          by_cases hLlc : L = lc
          · subst hLlc
            rcases AddConnection_conns_self _ _ _ x hx with hx | hx
            · exact hD nb.ID.toNat hnbtoNat L x hx
            · subst hx
              omega
          · rw [AddConnection_conns_other _ _ _ _ hLlc] at hx
            exact hD nb.ID.toNat hnbtoNat L x hx
        · rw [hn2other k hkN hknb] at hx
          exact hD k hk L x hx
    · intro k hk L hLlc x hx
      rw [hlen2] at hk
      by_cases hkN : k = N.toNat
      · subst hkN
        rw [hn2N, AddConnection_conns_other _ _ _ _ (by omega)] at hx
        exact hE N.toNat hNtoNat L hLlc x hx
      · by_cases hknb : k = nb.ID.toNat
        · subst hknb
          rw [hn2nb, AddConnection_conns_other _ _ _ _ (by omega)] at hx
          exact hE nb.ID.toNat hnbtoNat L hLlc x hx
        · rw [hn2other k hkN hknb] at hx
          exact hE k hk L hLlc x hx

theorem headD_mem {α : Type} : ∀ (l : List α) (d : α), l ≠ [] → l.headD d ∈ l
  | [], _, hne => absurd rfl hne
  | a :: _, _, _ => List.mem_cons_self _ _

theorem searchLayer_ne_nil_of_pos (h : HNSWIndex) (q : List ℚ) (ep ef level : ℤ) :
    h.searchLayer q ep ef level ≠ [] := by
  have := searchLayer_length_pos h q ep ef level
  intro hcon
  rw [hcon] at this
  simp at this

theorem layerIds_mem_spec (h : HNSWIndex) (level : ℤ) {x : ℤ}
    (hx : x ∈ layerIds h level) :
    ∃ k, k < h.nodes.length ∧ x ∈ (h.nodes.getD k dNode).GetConnections level := by
  simp only [layerIds, List.mem_join] at hx
  obtain ⟨l, hl, hxl⟩ := hx
  obtain ⟨n, hn, hnl⟩ := List.mem_map.mp hl
  obtain ⟨k, hk, hkn⟩ := List.getElem_of_mem hn
  refine ⟨k, hk, ?_⟩
  rw [List.getD_eq_getElem h.nodes dNode hk, hkn, hnl]
  exact hxl

theorem getD_append_left_gen {α : Type} : ∀ (l : List α) (a d : α) (k : ℕ),
    k < l.length → (l ++ [a]).getD k d = l.getD k d
  | [], _, _, _, hk => by simp at hk
  | _ :: _, _, _, 0, _ => rfl
  | _ :: t, a, d, k + 1, hk => getD_append_left_gen t a d k (by simpa using hk)

theorem getD_append_self_gen {α : Type} : ∀ (l : List α) (a d : α),
    (l ++ [a]).getD l.length d = a
  | [], _, _ => rfl
  | _ :: t, a, d => getD_append_self_gen t a d

/-- Folding `linkNeighbor` over a neighbor list (all with valid ids below the
new node's) keeps every other node within the degree bound and adds at most
one edge per neighbor to the new node at the current layer. -/
theorem foldl_linkNeighbor_deg (lc N Mx Mx0 : ℤ) (len : ℕ) :
    ∀ (nbs : List SearchResult) (h : HNSWIndex) (c : ℤ),
      h.Mmax = Mx → h.Mmax0 = Mx0 → h.nodes.length = len →
      0 ≤ Mx → 0 ≤ Mx0 → 0 ≤ N → N < (len : ℤ) →
      (∀ nb ∈ nbs, 0 ≤ nb.ID ∧ nb.ID < N) →
      (∀ k, k < len → k ≠ N.toNat → ∀ L : ℤ, 0 ≤ L →
        ((h.nodes.getD k dNode).ConnectionCount L : ℤ) ≤ bnd Mx Mx0 L) →
      (∀ L : ℤ, 0 ≤ L → L ≠ lc →
        ((h.nodes.getD N.toNat dNode).ConnectionCount L : ℤ) ≤ bnd Mx Mx0 L) →
      (∀ L : ℤ, L < lc → (h.nodes.getD N.toNat dNode).ConnectionCount L = 0) →
      (((h.nodes.getD N.toNat dNode).ConnectionCount lc : ℤ) ≤ c) →
      (∀ k, k < len → ∀ L : ℤ,
        ∀ x ∈ (h.nodes.getD k dNode).GetConnections L, 0 ≤ x ∧ x < (len : ℤ)) →
      (∀ k, k < len → ∀ L : ℤ, L < lc →
        ∀ x ∈ (h.nodes.getD k dNode).GetConnections L, x < N) →
      (nbs.foldl (linkNeighbor lc N) h).Mmax = Mx ∧
      (nbs.foldl (linkNeighbor lc N) h).Mmax0 = Mx0 ∧
      (nbs.foldl (linkNeighbor lc N) h).nodes.length = len ∧
      (∀ k, k < len → k ≠ N.toNat → ∀ L : ℤ, 0 ≤ L →
        (((nbs.foldl (linkNeighbor lc N) h).nodes.getD k dNode).ConnectionCount L : ℤ) ≤
          bnd Mx Mx0 L) ∧
      (∀ L : ℤ, 0 ≤ L → L ≠ lc →
        (((nbs.foldl (linkNeighbor lc N) h).nodes.getD N.toNat dNode).ConnectionCount L : ℤ) ≤
          bnd Mx Mx0 L) ∧
      (∀ L : ℤ, L < lc →
        ((nbs.foldl (linkNeighbor lc N) h).nodes.getD N.toNat dNode).ConnectionCount L = 0) ∧
      ((((nbs.foldl (linkNeighbor lc N) h).nodes.getD N.toNat dNode).ConnectionCount lc : ℤ) ≤
        c + nbs.length) ∧
      (∀ k, k < len → ∀ L : ℤ,
        ∀ x ∈ ((nbs.foldl (linkNeighbor lc N) h).nodes.getD k dNode).GetConnections L,
          0 ≤ x ∧ x < (len : ℤ)) ∧
      (∀ k, k < len → ∀ L : ℤ, L < lc →
        ∀ x ∈ ((nbs.foldl (linkNeighbor lc N) h).nodes.getD k dNode).GetConnections L,
          x < N)
  | [], h, c, hMxe, hMx0e, hlene, hMx, hMx0, hN0, hNlen, _, hA, hB, hB2, hC, hD, hE => by
    refine ⟨hMxe, hMx0e, hlene, hA, hB, hB2, ?_, hD, hE⟩
    simpa using hC
  | nb :: nbs, h, c, hMxe, hMx0e, hlene, hMx, hMx0, hN0, hNlen, hnbs, hA, hB, hB2, hC,
      hD, hE => by
    simp only [List.foldl_cons]
    have hsh := linkNeighbor_sameShape lc N h nb
    have hstep := linkNeighbor_step lc N nb h c (by omega) (by omega) hN0 (by omega)
      (hnbs nb (List.mem_cons_self _ _)).1 (hnbs nb (List.mem_cons_self _ _)).2
      (by rw [hMxe, hMx0e, hlene]; exact hA) (by rw [hMxe, hMx0e]; exact hB) hB2 hC
      (by rw [hlene]; exact hD) (by rw [hlene]; exact hE)
    obtain ⟨sA, sB, sB2, sC, sD, sE⟩ := hstep
    have hlen' : (linkNeighbor lc N h nb).nodes.length = len := by
      rw [hsh.2.2.2.2.2.2.2.2, hlene]
    have hMx' : (linkNeighbor lc N h nb).Mmax = Mx := by rw [hsh.2.1, hMxe]
    have hMx0' : (linkNeighbor lc N h nb).Mmax0 = Mx0 := by rw [hsh.2.2.1, hMx0e]
    have ih := foldl_linkNeighbor_deg lc N Mx Mx0 len nbs (linkNeighbor lc N h nb) (c + 1)
      hMx' hMx0' hlen' hMx hMx0 hN0 hNlen
      (fun x hx => hnbs x (List.mem_cons_of_mem _ hx))
      (by rw [hMxe, hMx0e] at sA; intro k hk; exact sA k (by omega) )
      (by rw [hMxe, hMx0e] at sB; exact sB)
      sB2 sC
      (by rw [hlene] at sD; intro k hk; exact sD k (by omega))
      (by intro k hk; exact sE k (by omega))
    refine ⟨ih.1, ih.2.1, ih.2.2.1, ih.2.2.2.1, ih.2.2.2.2.1, ih.2.2.2.2.2.1, ?_,
      ih.2.2.2.2.2.2.2.1, ih.2.2.2.2.2.2.2.2⟩
    have := ih.2.2.2.2.2.2.1
    have hlc : ((nb :: nbs).length : ℤ) = (nbs.length : ℤ) + 1 := by
      rw [List.length_cons]
      push_cast
      ring
    show _ ≤ c + ((nb :: nbs).length : ℤ)
    rw [hlc]
    omega

/-- During phase 1, `currentNearest` stays a valid pre-existing node id. -/
theorem phase1_lt (q : List ℚ) (N : ℤ) (h : HNSWIndex)
    (hAll : ∀ k, k < h.nodes.length → ∀ L : ℤ,
      ∀ x ∈ (h.nodes.getD k dNode).GetConnections L, 0 ≤ x ∧ x < N) :
    ∀ (k : ℕ) (lc cur : ℤ), 0 ≤ cur → cur < N →
      0 ≤ phase1 h q k lc cur ∧ phase1 h q k lc cur < N
  | 0, _, cur, h0, h1 => ⟨h0, h1⟩
  | k + 1, lc, cur, h0, h1 => by
    simp only [phase1]
    have hne := searchLayer_ne_nil_of_pos h q cur 1 lc
    have hmem := headD_mem _ (⟨0, 0⟩ : SearchResult) hne
    have hbound : 0 ≤ ((h.searchLayer q cur 1 lc).headD ⟨0, 0⟩).ID ∧
        ((h.searchLayer q cur 1 lc).headD ⟨0, 0⟩).ID < N := by
      rcases searchLayer_mem h q cur 1 lc _ hmem with hid | hid
      · rw [hid]
        exact ⟨h0, h1⟩
      · obtain ⟨k', hk', hx⟩ := layerIds_mem_spec h lc hid
        exact hAll k' hk' lc _ hx
    exact phase1_lt q N h hAll k (lc - 1) _ hbound.1 hbound.2

/-- Phase 2 preserves the degree bound and id validity: on exit every node
(including the new one) is within the per-layer bound and all adjacency ids
are valid. -/
theorem phase2_deg (q : List ℚ) (N Mx Mx0 : ℤ) (len : ℕ) :
    ∀ (k : ℕ) (lc cur : ℤ) (h : HNSWIndex),
      h.Mmax = Mx → h.Mmax0 = Mx0 → h.nodes.length = len →
      ((k : ℤ) = lc + 1 ∨ k = 0) →
      0 ≤ Mx → 0 ≤ Mx0 → 0 ≤ N → N < (len : ℤ) →
      0 ≤ cur → cur < N →
      (∀ k', k' < len → ∀ L : ℤ, 0 ≤ L →
        ((h.nodes.getD k' dNode).ConnectionCount L : ℤ) ≤ bnd Mx Mx0 L) →
      (∀ L : ℤ, L ≤ lc → (h.nodes.getD N.toNat dNode).ConnectionCount L = 0) →
      (∀ k', k' < len → ∀ L : ℤ,
        ∀ x ∈ (h.nodes.getD k' dNode).GetConnections L, 0 ≤ x ∧ x < (len : ℤ)) →
      (∀ k', k' < len → ∀ L : ℤ, L ≤ lc →
        ∀ x ∈ (h.nodes.getD k' dNode).GetConnections L, x < N) →
      ((phase2 q N k lc cur h).1.nodes.length = len ∧
        (phase2 q N k lc cur h).1.Mmax = Mx ∧ (phase2 q N k lc cur h).1.Mmax0 = Mx0) ∧
      (∀ k', k' < len → ∀ L : ℤ, 0 ≤ L →
        (((phase2 q N k lc cur h).1.nodes.getD k' dNode).ConnectionCount L : ℤ) ≤
          bnd Mx Mx0 L) ∧
      (∀ k', k' < len → ∀ L : ℤ,
        ∀ x ∈ ((phase2 q N k lc cur h).1.nodes.getD k' dNode).GetConnections L,
          0 ≤ x ∧ x < (len : ℤ))
  | 0, lc, cur, h, hMxe, hMx0e, hlene, _, _, _, _, _, _, _, hPA, _, hPD, _ =>
    ⟨⟨hlene, hMxe, hMx0e⟩, hPA, hPD⟩
  | k + 1, lc, cur, h, hMxe, hMx0e, hlene, hk, hMx, hMx0, hN0, hNlen, hcur0, hcurN,
      hPA, hPB, hPD, hPE => by
    have hlc0 : lc = (k : ℤ) := by omega
    have hlcge : 0 ≤ lc := by omega
    simp only [phase2]
    set candidates := h.searchLayer q cur h.efConstruction lc with hcands
    set m := if lc = 0 then h.Mmax0 else h.Mmax with hm
    set neighbors := selectNeighborsHeuristic q candidates m with hnbs
    have hmbnd : m = bnd Mx Mx0 lc := by
      rw [hm, bnd, hMxe, hMx0e]
    have hm0 : 0 ≤ m := by
      rw [hmbnd, bnd]
      split <;> omega
    have hcand_ids : ∀ r ∈ candidates, 0 ≤ r.ID ∧ r.ID < N := by
      intro r hr
      rcases searchLayer_mem h q cur h.efConstruction lc r hr with hid | hid
      · rw [hid]
        exact ⟨hcur0, hcurN⟩
      · obtain ⟨k', hk', hx⟩ := layerIds_mem_spec h lc hid
        have h1 := hPD k' (by omega) lc r.ID hx
        have h2 := hPE k' (by omega) lc (le_refl _) r.ID hx
        exact ⟨h1.1, h2⟩
    have hnb_ids : ∀ nb ∈ neighbors, 0 ≤ nb.ID ∧ nb.ID < N :=
      fun nb hnb => hcand_ids nb (selectNeighborsHeuristic_mem q candidates m nb hnb)
    have hnb_len : (neighbors.length : ℤ) ≤ bnd Mx Mx0 lc := by
      rw [hnbs, ← hmbnd]
      exact selectNeighborsHeuristic_length q candidates m hm0
    have hfold := foldl_linkNeighbor_deg lc N Mx Mx0 len neighbors h 0 hMxe hMx0e hlene
      hMx hMx0 hN0 hNlen hnb_ids
      (fun k' hk' _ L hL => hPA k' hk' L hL)
      (fun L hL _ => hPA N.toNat (by omega) L hL)
      (fun L hL => hPB L (by omega))
      (by rw [hPB lc (le_refl _)]; simp)
      hPD
      (fun k' hk' L hL x hx => hPE k' hk' L (by omega) x hx)
    obtain ⟨fMx, fMx0, flen, fA, fB, fB2, fC, fD, fE⟩ := hfold
    set h' := neighbors.foldl (linkNeighbor lc N) h with hh'
    set cur' := if neighbors.length > 0 then (neighbors.headD ⟨0, 0⟩).ID else cur
      with hcur'
    have hcur'b : 0 ≤ cur' ∧ cur' < N := by
      rw [hcur']
      split
      · rename_i hpos
        refine hnb_ids _ (headD_mem _ _ ?_)
        intro hcon
        rw [hcon] at hpos
        simp at hpos
      · exact ⟨hcur0, hcurN⟩
    refine phase2_deg q N Mx Mx0 len k (lc - 1) cur' h' fMx fMx0 flen (by omega)
      hMx hMx0 hN0 hNlen hcur'b.1 hcur'b.2 ?_ ?_ fD ?_
    · -- full degree bound on entry to the next layer
      intro k' hk' L hL
      by_cases hkN : k' = N.toNat
      · subst hkN
        by_cases hLlc : L = lc
        · subst hLlc
          have := fC
          omega
        · exact fB L hL hLlc
      · exact fA k' hk' hkN L hL
    · intro L hL
      exact fB2 L (by omega)
    · intro k' hk' L hL x hx
      exact fE k' hk' L (by omega) x hx

/-- The global well-formedness invariant maintained by sequential `Add`
calls: every node is within its per-layer degree bound, every adjacency id is
a valid arena index, and the entry-point/max-level sentinels are coherent. -/
def GoodIndex (h : HNSWIndex) : Prop :=
  (∀ k, k < h.nodes.length → ∀ L : ℤ, 0 ≤ L →
    ((h.nodes.getD k dNode).ConnectionCount L : ℤ) ≤ bnd h.Mmax h.Mmax0 L) ∧
  (∀ k, k < h.nodes.length → ∀ L : ℤ,
    ∀ x ∈ (h.nodes.getD k dNode).GetConnections L, 0 ≤ x ∧ x < (h.nodes.length : ℤ)) ∧
  -1 ≤ h.entryPoint ∧ h.entryPoint < (h.nodes.length : ℤ) ∧ -1 ≤ h.maxLevel ∧
  (0 ≤ h.maxLevel → 0 ≤ h.entryPoint) ∧ 0 ≤ h.Mmax ∧ 0 ≤ h.Mmax0

theorem NewHNSW_good (config : Config) : GoodIndex (NewHNSW config) := by
  refine ⟨?_, ?_, ?_, ?_, ?_, ?_, ?_, ?_⟩
  · intro k hk
    simp [NewHNSW] at hk
  · intro k hk
    simp [NewHNSW] at hk
  · show -1 ≤ (-1 : ℤ)
    omega
  · show (-1 : ℤ) < _
    simp [NewHNSW]
  · show -1 ≤ (-1 : ℤ)
    omega
  · intro hcon
    exact absurd hcon (by simp [NewHNSW])
  · show (0 : ℤ) ≤ if config.M ≤ 0 then 16 else config.M
    split <;> omega
  · show (0 : ℤ) ≤ (if config.M ≤ 0 then 16 else config.M) * 2
    split <;> omega

theorem Add_good (h : HNSWIndex) (v : List ℚ) (lvl : ℤ) (hg : GoodIndex h) :
    GoodIndex (h.Add v lvl).1 := by
  obtain ⟨gA, gD, gE1, gE2, gE3, gE4, gM1, gM2⟩ := hg
  simp only [HNSWIndex.Add]
  split
  · exact ⟨gA, gD, gE1, gE2, gE3, gE4, gM1, gM2⟩
  · set N : ℤ := (h.nodes.length : ℤ) with hN
    set nn := NewNode N v lvl with hnn
    set h1 : HNSWIndex := { h with nodes := h.nodes ++ [nn] } with hh1
    show GoodIndex (h1.insert N)
    have hlen1 : h1.nodes.length = h.nodes.length + 1 := by
      rw [hh1]
      simp
    have hNtoNat : N.toNat = h.nodes.length := by
      rw [hN]
      exact Int.toNat_natCast _
    have hgetD_new : h1.nodes.getD N.toNat dNode = nn := by
      rw [hh1]
      show (h.nodes ++ [nn]).getD N.toNat dNode = nn
      rw [hNtoNat]
      exact getD_append_self_gen _ _ _
    have hgetD_old : ∀ k, k < h.nodes.length →
        h1.nodes.getD k dNode = h.nodes.getD k dNode := by
      intro k hk
      rw [hh1]
      exact getD_append_left_gen _ _ _ _ hk
    have hbnd0 : ∀ L : ℤ, 0 ≤ bnd h.Mmax h.Mmax0 L := by
      intro L
      rw [bnd]
      split <;> omega
    have hgetNode_new : h1.getNode N = nn := by
      rw [getNode_eq_getD, hgetD_new]
    have hPA1 : ∀ k', k' < h1.nodes.length → ∀ L : ℤ, 0 ≤ L →
        ((h1.nodes.getD k' dNode).ConnectionCount L : ℤ) ≤ bnd h.Mmax h.Mmax0 L := by
      intro k' hk' L hL
      by_cases hko : k' < h.nodes.length
      · rw [hgetD_old k' hko]
        exact gA k' hko L hL
      · have hke : k' = h.nodes.length := by omega
        rw [hke, ← hNtoNat, hgetD_new, hnn, NewNode_count]
        simpa using hbnd0 L
    have hPB1 : ∀ L : ℤ, (h1.nodes.getD N.toNat dNode).ConnectionCount L = 0 := by
      intro L
      rw [hgetD_new, hnn, NewNode_count]
    have hPD1 : ∀ k', k' < h1.nodes.length → ∀ L : ℤ,
        ∀ x ∈ (h1.nodes.getD k' dNode).GetConnections L,
          0 ≤ x ∧ x < (h1.nodes.length : ℤ) := by
      intro k' hk' L x hx
      by_cases hko : k' < h.nodes.length
      · rw [hgetD_old k' hko] at hx
        have := gD k' hko L x hx
        constructor
        · exact this.1
        · rw [hlen1]
          push_cast
          omega
      · have hke : k' = h.nodes.length := by omega
        rw [hke, ← hNtoNat, hgetD_new, hnn, NewNode_conns] at hx
        simp at hx
    have hPE1 : ∀ k', k' < h1.nodes.length → ∀ L : ℤ,
        ∀ x ∈ (h1.nodes.getD k' dNode).GetConnections L, x < N := by
      intro k' hk' L x hx
      by_cases hko : k' < h.nodes.length
      · rw [hgetD_old k' hko] at hx
        exact (gD k' hko L x hx).2
      · have hke : k' = h.nodes.length := by omega
        rw [hke, ← hNtoNat, hgetD_new, hnn, NewNode_conns] at hx
        simp at hx
    -- properties of the edge-building phase
    have hEdges : (insertEdges h1 N).nodes.length = h1.nodes.length ∧
        (insertEdges h1 N).Mmax = h.Mmax ∧ (insertEdges h1 N).Mmax0 = h.Mmax0 ∧
        (∀ k', k' < h1.nodes.length → ∀ L : ℤ, 0 ≤ L →
          (((insertEdges h1 N).nodes.getD k' dNode).ConnectionCount L : ℤ) ≤
            bnd h.Mmax h.Mmax0 L) ∧
        (∀ k', k' < h1.nodes.length → ∀ L : ℤ,
          ∀ x ∈ ((insertEdges h1 N).nodes.getD k' dNode).GetConnections L,
            0 ≤ x ∧ x < (h1.nodes.length : ℤ)) := by
      simp only [insertEdges]
      rw [hgetNode_new]
      set start := min nn.level h1.maxLevel with hstart
      set cur := phase1 h1 nn.vector (h1.maxLevel - nn.level).toNat h1.maxLevel
        h1.entryPoint with hcur
      by_cases hs : 0 ≤ start
      · have hmL : 0 ≤ h1.maxLevel := le_trans hs (min_le_right _ _)
        have hep0 : 0 ≤ h1.entryPoint := gE4 hmL
        have hepN : h1.entryPoint < N := gE2
        have hcurb : 0 ≤ cur ∧ cur < N := by
          rw [hcur]
          exact phase1_lt nn.vector N h1
            (fun k' hk' L x hx => ⟨(hPD1 k' hk' L x hx).1, hPE1 k' hk' L x hx⟩)
            _ _ _ hep0 hepN
        have hP2 := phase2_deg nn.vector N h.Mmax h.Mmax0 h1.nodes.length
          (start + 1).toNat start cur h1 rfl rfl rfl (by omega)
          gM1 gM2 (by omega) (by rw [hlen1]; push_cast; omega)
          hcurb.1 hcurb.2 hPA1 (fun L _ => hPB1 L) hPD1
          (fun k' hk' L _ x hx => hPE1 k' hk' L x hx)
        exact ⟨hP2.1.1, hP2.1.2.1, hP2.1.2.2, hP2.2.1, hP2.2.2⟩
      · have hzero : (start + 1).toNat = 0 := by omega
        rw [hzero]
        exact ⟨rfl, rfl, rfl, hPA1, hPD1⟩
    obtain ⟨eLen, eMx, eMx0, eA, eD⟩ := hEdges
    simp only [HNSWIndex.insert]
    rw [hgetNode_new]
    split
    · rename_i hup
      refine ⟨?_, ?_, ?_, ?_, ?_, ?_, ?_, ?_⟩
      · intro k hk L hL
        show ((_ : ℕ) : ℤ) ≤ bnd (insertEdges h1 N).Mmax (insertEdges h1 N).Mmax0 L
        rw [eMx, eMx0]
        have hk' : k < (insertEdges h1 N).nodes.length := hk
        refine eA k ?_ L hL
        omega
      · intro k hk L x hx
        have hk' : k < (insertEdges h1 N).nodes.length := hk
        have h1b := eD k (by omega) L x hx
        refine ⟨h1b.1, ?_⟩
        show x < ((insertEdges h1 N).nodes.length : ℤ)
        rw [eLen]
        exact h1b.2
      · show -1 ≤ N
        omega
      · show N < ((insertEdges h1 N).nodes.length : ℤ)
        rw [eLen, hlen1]
        push_cast
        omega
      · show -1 ≤ nn.level
        have : h1.maxLevel = h.maxLevel := rfl
        omega
      · intro _
        show 0 ≤ N
        omega
      · show 0 ≤ (insertEdges h1 N).Mmax
        rw [eMx]
        exact gM1
      · show 0 ≤ (insertEdges h1 N).Mmax0
        rw [eMx0]
        exact gM2
    · rename_i hup
      have hsh := insertEdges_sameShape h1 N
      refine ⟨?_, ?_, ?_, ?_, ?_, ?_, ?_, ?_⟩
      · intro k hk L hL
        show ((_ : ℕ) : ℤ) ≤ bnd (insertEdges h1 N).Mmax (insertEdges h1 N).Mmax0 L
        rw [eMx, eMx0]
        have hk' : k < (insertEdges h1 N).nodes.length := hk
        refine eA k ?_ L hL
        omega
      · intro k hk L x hx
        have hk' : k < (insertEdges h1 N).nodes.length := hk
        have h1b := eD k (by omega) L x hx
        refine ⟨h1b.1, ?_⟩
        show x < ((insertEdges h1 N).nodes.length : ℤ)
        rw [eLen]
        exact h1b.2
      · show -1 ≤ (insertEdges h1 N).entryPoint
        rw [hsh.2.2.2.2.2.1]
        exact gE1
      · show (insertEdges h1 N).entryPoint < ((insertEdges h1 N).nodes.length : ℤ)
        rw [hsh.2.2.2.2.2.1, eLen, hlen1]
        show h.entryPoint < _
        push_cast
        omega
      · show -1 ≤ (insertEdges h1 N).maxLevel
        rw [hsh.2.2.2.2.2.2.1]
        exact gE3
      · intro hml
        rw [hsh.2.2.2.2.2.2.1] at hml
        show 0 ≤ (insertEdges h1 N).entryPoint
        rw [hsh.2.2.2.2.2.1]
        exact gE4 hml
      · show 0 ≤ (insertEdges h1 N).Mmax
        rw [eMx]
        exact gM1
      · show 0 ≤ (insertEdges h1 N).Mmax0
        rw [eMx0]
        exact gM2

theorem addSeq_good : ∀ (items : List (List ℚ × ℤ)) (h : HNSWIndex),
    GoodIndex h → GoodIndex (addSeq h items)
  | [], _, hg => hg
  | p :: items, h, hg => by
    simp only [addSeq, List.foldl_cons]
    exact addSeq_good items _ (Add_good h p.1 p.2 hg)

/-- C2: after any sequence of sequential insertions into a fresh index, every
node's connection count at every layer `0 ≤ L ≤ node.level` is at most
`Mmax0` when `L = 0` and at most `Mmax` when `L ≥ 1` (the inserting call
re-prunes an over-full neighbor immediately, and the new node receives at
most the bound many edges per layer). -/
theorem insert_degree_bound (config : Config) (items : List (List ℚ × ℤ)) :
    ∀ n ∈ (addSeq (NewHNSW config) items).nodes, ∀ L : ℤ, 0 ≤ L → L ≤ n.level →
      ((n.ConnectionCount L : ℤ) ≤
        if L = 0 then (addSeq (NewHNSW config) items).Mmax0
        else (addSeq (NewHNSW config) items).Mmax) := by
  intro n hn L hL0 _
  have hg := addSeq_good items (NewHNSW config) (NewHNSW_good config)
  obtain ⟨gA, _⟩ := hg
  obtain ⟨k, hk, hkn⟩ := List.getElem_of_mem hn
  have hb := gA k hk L hL0
  rw [List.getD_eq_getElem _ dNode hk, hkn] at hb
  exact hb

/-- C2 witness: three sequential insertions with `M = 1` (so `Mmax = 1`,
`Mmax0 = 2`); node 0 ends with two layer-0 connections, within `Mmax0`. -/
theorem insert_degree_bound_witness :
    ((Node.mk 0 [5] 0 [[1, 2]]).ConnectionCount 0 : ℤ) ≤
      (if (0 : ℤ) = 0 then (addSeq (NewHNSW ⟨1, 2, 1, fun _ _ => 0, 0⟩)
          [([5], 0), ([7], 0), ([6], 1)]).Mmax0
        else (addSeq (NewHNSW ⟨1, 2, 1, fun _ _ => 0, 0⟩)
          [([5], 0), ([7], 0), ([6], 1)]).Mmax) :=
  insert_degree_bound ⟨1, 2, 1, fun _ _ => 0, 0⟩ [([5], 0), ([7], 0), ([6], 1)]
    (Node.mk 0 [5] 0 [[1, 2]]) (by decide) 0 (by decide) (by decide)
